import Mathlib

/-!
Verification of the VeriXmith SMT equivalence engine, IR loader, naming
helpers, coverage tracker and orchestration loop, shallowly embedded from
`src/core/circuits/smt.py`, `src/core/ir/module.py`, `src/core/ir/item.py`,
`src/core/ir/crossbar.py`, `src/core/mutators/heuristics.py` and
`src/core/api.py`.

Python strings are modeled as `List Char`, Python `set`s of hashable values
as deduplicated lists or `Finset`s, machine integers as `Nat`, and fallible
code as `Except String`.
-/

namespace VeriXmith

/-! ### Bit-vector and Boolean SMT terms (pysmt `FNode`)

The equivalence engine builds pysmt formulas over bit-vectors
(`BV`, `BVZExt`, `EqualsOrIff`) and Booleans (`And`, `Or`, `Not`, `Iff`).
`BVExpr.var` stands for an opaque backend accessor applied to a state
symbol; `SmtForm.boolVar` stands for an opaque Boolean formula such as a
circuit's transition relation `T[i]` or precondition.  Evaluation is over
an assignment of the opaque variables. -/

inductive BVExpr where
  | const (value width : Nat)
  | var (id width : Nat)
  | zext (e : BVExpr) (extra : Nat)
deriving DecidableEq, Repr

def BVExpr.width : BVExpr → Nat
  | .const _ w => w
  | .var _ w => w
  | .zext e k => e.width + k

/-- A bit-vector of width `w` denotes a value `< 2 ^ w`; `zext` (zero
extension) does not change the denoted value. -/
def BVExpr.eval (σ : Nat → Nat) : BVExpr → Nat
  | .const v w => v % 2 ^ w
  | .var i w => σ i % 2 ^ w
  | .zext e _ => e.eval σ

/-- pysmt `FNode.is_constant`: only a literal constant node is constant. -/
def BVExpr.isConstant : BVExpr → Bool
  | .const _ _ => true
  | _ => false

inductive SmtForm where
  | boolConst (b : Bool)
  | boolVar (i : Nat)
  | eqBV (l r : BVExpr)
  | notF (f : SmtForm)
  | andF (l r : SmtForm)
  | orF (l r : SmtForm)
  | iffF (l r : SmtForm)
deriving DecidableEq, Repr

def SmtForm.eval (σb : Nat → Bool) (σ : Nat → Nat) : SmtForm → Bool
  | .boolConst b => b
  | .boolVar i => σb i
  | .eqBV l r => decide (l.eval σ = r.eval σ)
  | .notF f => !(f.eval σb σ)
  | .andF l r => l.eval σb σ && r.eval σb σ
  | .orF l r => l.eval σb σ || r.eval σb σ
  | .iffF l r => l.eval σb σ == r.eval σb σ

/-- pysmt n-ary `And(*fs)` (`And()` is `TRUE`), as a right fold. -/
def listAnd (fs : List SmtForm) : SmtForm := fs.foldr .andF (.boolConst true)

/-- pysmt n-ary `Or(*fs)` (`Or()` is `FALSE`), as a right fold. -/
def listOr (fs : List SmtForm) : SmtForm := fs.foldr .orF (.boolConst false)

/-! ### `BinaryComparator` (src/core/circuits/smt.py)

Hierarchical path names are abstracted to natural-number identifiers; a
circuit's `signal_value_at_state` for a fixed state is a function from
paths to backend value streams. -/

namespace BinaryComparator

/-- Embeds `bool_to_bv` (src/core/ir/crossbar.py): a Boolean is wrapped into a
1-bit vector, a bit-vector is returned unchanged.  The embedding carries
only bit-vector values, so only the identity branch is exercised. -/
def bool_to_bv (x : BVExpr) : BVExpr := x

/-- Embeds `BinaryComparator.align_width`: zero-extend the shorter of the two
bit-vectors so that both share the same width.  `diff` is the signed
difference `foo.bv_width() - bar.bv_width()`. -/
def align_width (foo bar : BVExpr) : BVExpr × BVExpr :=
  let foo := bool_to_bv foo
  let bar := bool_to_bv bar
  let diff : Int := (foo.width : Int) - (bar.width : Int)
  if diff = 0 then (foo, bar)
  else if diff < 0 then (.zext foo (-diff).toNat, bar)
  else (foo, .zext bar diff.toNat)

/-- Embeds `BinaryComparator.concretize`: pin the given bit-vector to a specific
value of its own width.  `value` stands for the provided or randomly drawn
(`getrandbits(width)`) value; `getrandbits` guarantees `value < 2 ^ width`,
expressed here by reducing modulo `2 ^ width`. -/
def concretize (foo : BVExpr) (value : Nat) : BVExpr :=
  let foo := bool_to_bv foo
  .const (value % 2 ^ foo.width) foo.width

/-- A backend value stream for one path: either a finite list of
bit-vector accessors (supports `len()`), or the lazy infinite stream
`repeat(BVZero(1))` returned for optimized-out items, which has no
`__len__`. -/
inductive SignalValues where
  | finite (vs : List BVExpr)
  | infiniteZeros
deriving DecidableEq, Repr

/-- Python `hasattr(x, '__len__')`. -/
def hasLen : SignalValues → Bool
  | .finite _ => true
  | .infiniteZeros => false

/-- Python `zip` of two value streams: it truncates at the shorter
operand, so a finite stream zipped with `repeat(BVZero(1))` pairs every
finite element with a 1-bit zero.  Two infinite streams are never zipped
(such paths are skipped by `_align_variables`). -/
def zipVals : SignalValues → SignalValues → List (BVExpr × BVExpr)
  | .finite xs, .finite ys => xs.zip ys
  | .finite xs, .infiniteZeros => xs.map (fun x => (x, BVExpr.const 0 1))
  | .infiniteZeros, .finite ys => ys.map (fun y => (BVExpr.const 0 1, y))
  | .infiniteZeros, .infiniteZeros => []

/-- Embeds `BinaryComparator._align_variables`: for each path obtain the two
value streams; if both support `len()` assert equal lengths and yield the
pair; if neither supports `len()` skip the path; otherwise (exactly one
supports `len()`) yield the pair.  The Python `assert` is modeled as an
`Except.error`. -/
def align_variables (thisVals thatVals : Nat → SignalValues) :
    List Nat → Except String (List (Nat × SignalValues × SignalValues))
  | [] => .ok []
  | p :: rest =>
    let these := thisVals p
    let those := thatVals p
    if hasLen these && hasLen those then
      match these, those with
      | .finite xs, .finite ys =>
        if xs.length = ys.length then
          (align_variables thisVals thatVals rest).map (fun tl => (p, these, those) :: tl)
        else .error "assertion failed: len(these_values) == len(those_values)"
      | _, _ => .error "unreachable"
    else if !hasLen these && !hasLen those then
      align_variables thisVals thatVals rest
    else
      (align_variables thisVals thatVals rest).map (fun tl => (p, these, those) :: tl)

/-- Embeds `BinaryComparator.always_equal`: for every aligned path, and for every
zipped pair of stream elements, emit `EqualsOrIff` over the
width-aligned operands. -/
def always_equal (thisVals thatVals : Nat → SignalValues) (paths : List Nat) :
    Except String (List SmtForm) :=
  (align_variables thisVals thatVals paths).map (fun triples =>
    (triples.map (fun t =>
      (zipVals t.2.1 t.2.2).map (fun lr =>
        SmtForm.eqBV (align_width lr.1 lr.2).1 (align_width lr.1 lr.2).2))).flatten)

/-- Embeds `BinaryComparator.equal_to_specific_value`: for each equation produced
by `always_equal` with operands `l, r`, yield the equation itself when one
operand is a constant, and otherwise the conjunction of the pinning
constraint `EqualsOrIff(concretize(l, value), r)` with the equation.
`choose i` stands for the random value drawn for the `i`-th equation when
no `value` is supplied.  `equationToSpecific` is the treatment of one
equation (`equation.args()` destructuring included). -/
def equationToSpecific (value : Nat) (equation : SmtForm) : SmtForm :=
  match equation with
  | .eqBV l r =>
    if l.isConstant || r.isConstant then SmtForm.eqBV l r
    else .andF (.eqBV (concretize l value) r) (SmtForm.eqBV l r)
  | other => other

def equal_to_specific_value (choose : Nat → Nat)
    (thisVals thatVals : Nat → SignalValues) (paths : List Nat) :
    Except String (List SmtForm) :=
  (always_equal thisVals thatVals paths).map (fun eqs =>
    eqs.enum.map (fun pr => equationToSpecific (choose pr.1) pr.2))

/-- Embeds `BinaryComparator._get_common_paths`: when the two circuits are the
same object (`self_comparator`), iterate the whole key view of the single
model; otherwise build `set([*paths_in_this_model, *paths_in_other_model])`
(a set is modeled as a deduplicated list). -/
def get_common_paths (sameCircuit : Bool) (thisPaths thatPaths : List Nat) : List Nat :=
  if sameCircuit then thisPaths
  else (thisPaths ++ thatPaths).dedup

end BinaryComparator

/-! ### `SmtCircuit.is_equivalent_to`: assertion assembly and solving -/

/-- Embeds `[idx for idx, circ in enumerate(circuits) if circ.is_partial]`.
A circuit is a pair of its transition-relation formula
`T[i] = C[i].data(current[i], next[i])` and its `is_partial` flag. -/
def partial_indices (circuits : List (SmtForm × Bool)) : List Nat :=
  (circuits.enum.filter (fun pr => pr.2.2)).map Prod.fst

/-- The dissent assertion of `SmtCircuit.is_equivalent_to`
(src/core/circuits/smt.py lines 69-78): with no partial circuit assert the
miter negation `Not(And(Iff(T[i], T[i+1]) pairwise))`; with two or more
partial circuits raise `NotImplementedError`; with exactly one partial
circuit at index `p` pop `T[p]` and assert
`And(Or(Not(T[i]) for i ≠ p), T[p])`. -/
def is_equivalent_assertion (circuits : List (SmtForm × Bool)) : Except String SmtForm :=
  let transformation_exprs := circuits.map Prod.fst
  let pIdx := partial_indices circuits
  if pIdx.isEmpty then
    .ok (.notF (listAnd ((transformation_exprs.zip transformation_exprs.tail).map
      (fun ab => .iffF ab.1 ab.2))))
  else if 2 ≤ pIdx.length then
    .error "comparing >=2 partial models is not supported"
  else
    let p := pIdx.headD 0
    let partial_expr := transformation_exprs.getD p (.boolConst true)
    let rest := transformation_exprs.eraseIdx p
    .ok (.andF (listOr (rest.map .notF)) partial_expr)

/-- The conjunction handed to the solver by `is_equivalent_to`: the
dissent assertion, `And(*equations)`, and one precondition per circuit.
`is_equivalent_to` returns `not solver.solve()`, i.e. `true` (equivalent)
exactly when no assignment satisfies this conjunction. -/
def queryEval (σb : Nat → Bool) (σ : Nat → Nat)
    (assertion : SmtForm) (equations preconditions : List SmtForm) : Bool :=
  assertion.eval σb σ && equations.all (fun e => e.eval σb σ)
    && preconditions.all (fun e => e.eval σb σ)

/-! ### `equivalence_check` pivot loop (src/core/api.py lines 139-160)

For each newly converted circuit the orchestration walks the existing
equivalence-class pivots in order.  Comparing against a pivot either
raises an exception (the trace is saved as `exception.log` in the
workspace) or returns a Boolean.  On `True` the conversion is added to
that pivot's class and the loop breaks; otherwise the loop continues; if
no pivot matched (`for ... else`), the circuit opens its own class. -/

inductive CompareOutcome where
  | raises
  | outcome (b : Bool)
deriving DecidableEq, Repr

/-- The pivot loop: returns the list of pivots whose comparison raised (in
order, one saved exception trace each) and either `some p` (the circuit is
merged into pivot `p`'s class) or `none` (the circuit is kept in its own
new equivalence class). -/
def pivotLoop (compare : Nat → CompareOutcome) : List Nat → List Nat × Option Nat
  | [] => ([], none)
  | p :: ps =>
    match compare p with
    | .raises =>
      let r := pivotLoop compare ps
      (p :: r.1, r.2)
    | .outcome true => ([], some p)
    | .outcome false => pivotLoop compare ps

/-! ### `VerilatorNamingHelper` (src/core/ir/crossbar.py lines 117-148)

Python strings are `List Char`.  `replaceList` is `str.replace` (scan left
to right, replace non-overlapping occurrences); `splitOnList` is
`str.split` with a non-empty separator; `hasSub` is the substring test
`pat in s`; `joinSep` is `sep.join(tokens)`. -/

def isPre : List Char → List Char → Bool
  | [], _ => true
  | _ :: _, [] => false
  | a :: as, b :: bs => a == b && isPre as bs

def hasSub (pat : List Char) : List Char → Bool
  | [] => isPre pat []
  | c :: rest => isPre pat (c :: rest) || hasSub pat rest

def replaceList (pat rep : List Char) : List Char → List Char
  | [] => []
  | c :: rest =>
    if isPre pat (c :: rest) then rep ++ replaceList pat rep (rest.drop (pat.length - 1))
    else c :: replaceList pat rep rest
termination_by s => s.length
decreasing_by
  · simp only [List.length_drop, List.length_cons]; omega
  · simp

def splitOnList (sep : List Char) : List Char → List (List Char)
  | [] => [[]]
  | c :: rest =>
    if isPre sep (c :: rest) then [] :: splitOnList sep (rest.drop (sep.length - 1))
    else
      match splitOnList sep rest with
      | [] => [[c]]
      | piece :: pieces => (c :: piece) :: pieces
termination_by s => s.length
decreasing_by
  · simp only [List.length_drop, List.length_cons]; omega
  · simp

/-- Python `sep.join(tokens)`. -/
def joinSep (sep : List Char) : List (List Char) → List Char
  | [] => []
  | [t] => t
  | t :: r :: rest => t ++ (sep ++ joinSep sep (r :: rest))

namespace VerilatorNamingHelper

def DOT : List Char := ['_', '_', 'D', 'O', 'T', '_', '_']

def LPAREN : List Char := ['_', '_', 'B', 'R', 'A', '_', '_']

def RPAREN : List Char := ['_', '_', 'K', 'E', 'T', '_', '_']

def DOLLAR : List Char := ['_', '_', '0', '2', '4']

/-- Embeds `VerilatorNamingHelper.merge`: a port of the top module (a single
submodule tag and `is_port`) is emitted bare with `$` escaped; any other
item is joined to its submodule chain with `__DOT__` and then `[`, `]`,
`$` are escaped. -/
def merge (submodules : List (List Char)) (item : List Char) (is_port : Bool) : List Char :=
  if submodules.length = 1 ∧ is_port then replaceList ['$'] DOLLAR item
  else
    let tokens := submodules ++ [item]
    let v1 := joinSep DOT tokens
    let v2 := replaceList ['['] LPAREN v1
    let v3 := replaceList [']'] RPAREN v2
    replaceList ['$'] DOLLAR v3

/-- Embeds `VerilatorNamingHelper.split`: unescape `__024`; a name without
`__DOT__` is an input/output port of the top module and is returned as a
one-element sequence; otherwise unescape `__BRA__`/`__KET__` and split on
`__DOT__`. -/
def split (full_name : List Char) : List (List Char) :=
  let fn := replaceList DOLLAR ['$'] full_name
  if hasSub DOT fn = false then [fn]
  else splitOnList DOT (replaceList RPAREN [']'] (replaceList LPAREN ['['] fn))

/-- A Verilator-legal name fragment (submodule tag or item name): a
non-empty identifier over letters, digits, single underscores, `$` (legal
in Verilog identifiers) and the brackets `[` and `]` of arrayed-instance
tags, with no leading or trailing underscore, no `__` run, and none of
the mangling fragments `BRA`, `KET`, `024` as a substring (Verilator
reserves the double-underscore escape sequences, so user identifiers
never collide with them). -/
def legalToken (t : List Char) : Bool :=
  !t.isEmpty && t.all (fun c => c.isAlphanum || c == '_' || c == '$' || c == '[' || c == ']')
    && !hasSub ['_', '_'] t
    && t.headD ' ' != '_' && t.getLastD ' ' != '_'
    && !hasSub ['B', 'R', 'A'] t && !hasSub ['K', 'E', 'T'] t
    && !hasSub ['0', '2', '4'] t

/-- The character-level image of the escape pipeline in `merge`'s general
branch: `[` becomes `__BRA__`, `]` becomes `__KET__`, `$` becomes `__024`,
every other character is kept. -/
def escBKD (c : Char) : List Char :=
  if c = '[' then LPAREN else if c = ']' then RPAREN else if c = '$' then DOLLAR else [c]

/-- The escape image left after the `__024` unescape in `split`: only `[`
and `]` remain escaped. -/
def escBK (c : Char) : List Char :=
  if c = '[' then LPAREN else if c = ']' then RPAREN else [c]

/-- The escape image left after the `__BRA__` unescape in `split`: only
`]` remains escaped. -/
def escK (c : Char) : List Char :=
  if c = ']' then RPAREN else [c]

/-- The character-level image of `merge`'s top-module-port branch: only
`$` is escaped. -/
def escD (c : Char) : List Char :=
  if c = '$' then DOLLAR else [c]

end VerilatorNamingHelper

/-! ### `ByteCoverage` (src/core/mutators/heuristics.py lines 29-62) -/

/-- Embeds `Replacement(start_byte, end_byte, substitute)`: replace
`data[start:end]` with the substitute bytes. -/
structure Replacement where
  start_byte : Nat
  end_byte : Nat
  substitute : List Nat
deriving DecidableEq, Repr

namespace ByteCoverage

/-- Python `chain.from_iterable(zip_longest(remainders, insertions, fillvalue=[]))`:
alternate the two streams starting with the first, appending whichever
runs longer (the empty-list fill value vanishes under concatenation). -/
def interleave : List (List Bool) → List (List Bool) → List (List Bool)
  | [], ys => ys
  | x :: xs, ys => x :: interleave ys xs
termination_by xs ys => xs.length + ys.length + 1

/-- Embeds `ByteCoverage.update` on the `covered_bytes` vector: slice the vector
into the remainders around the replacements (`covered[i:j]` is
`(take j).drop i`), insert a run of `True` of each replacement's original
length in between, and concatenate. -/
def update (covered : List Bool) (rs : List Replacement) : List Bool :=
  let start_bytes := 0 :: rs.map (·.end_byte)
  let end_bytes := rs.map (·.start_byte) ++ [covered.length]
  let remainders := List.zipWith (fun i j => (covered.take j).drop i) start_bytes end_bytes
  let insertions := rs.map (fun r => List.replicate (r.end_byte - r.start_byte) true)
  (interleave remainders insertions).flatten

/-- Position-generalized form of `update`, used to reason about it: the
remainder starting at `pos` followed by the insertion/remainder
alternation of the rest of the batch. -/
def updateFrom (covered : List Bool) (pos : Nat) : List Replacement → List Bool
  | [] => (covered.take covered.length).drop pos
  | r :: rest =>
    (covered.take r.start_byte).drop pos
      ++ (List.replicate (r.end_byte - r.start_byte) true ++ updateFrom covered r.end_byte rest)

/-- The caller's contract (`BytesEditor` asserts it): the batch is sorted
and non-overlapping, `pos ≤ s₀ ≤ e₀ ≤ s₁ ≤ ... ≤ len`. -/
def batchSorted (pos len : Nat) : List Replacement → Bool
  | [] => pos ≤ len
  | r :: rest => pos ≤ r.start_byte && r.start_byte ≤ r.end_byte && batchSorted r.end_byte len rest

end ByteCoverage

/-! ### IR items (src/core/ir/item.py) -/

inductive PortDirection where
  | INPUT
  | OUTPUT
  | INOUT
deriving DecidableEq, Repr

/-- Embeds `PortDirection.parse` on a string: unknown direction strings fall
through every branch and yield `None`. -/
def PortDirection.parse (direction : String) : Option PortDirection :=
  if direction = "input" then some .INPUT
  else if direction = "output" then some .OUTPUT
  else if direction = "inout" then some .INOUT
  else none

/-- Embeds `PrimitiveItem` declarations (the `inst_attrs` bag is attached only
during backend-specific instantiation and plays no role here). -/
structure PrimitiveItem where
  name : String
  width : Nat
  is_reg : Bool
  direction : Option PortDirection
deriving DecidableEq, Repr

def PrimitiveItem.is_register (p : PrimitiveItem) : Bool := p.is_reg

def PrimitiveItem.is_port (p : PrimitiveItem) : Bool := p.direction.isSome

/-- Embeds `CompoundItem` declarations: element indices form a set. -/
structure CompoundItem where
  name : String
  is_reg : Bool
  element_width : Nat
  element_indices : Finset Nat
deriving DecidableEq

def CompoundItem.is_register (c : CompoundItem) : Bool := c.is_reg

/-- The `compound_items_in_module` dict of a module, in insertion order. -/
abbrev CompoundMap := List (String × CompoundItem)

/-- Python `dict.setdefault(key, fresh)`: return the existing entry, or insert
and return `fresh`. -/
def CompoundMap.setdefault (m : CompoundMap) (key : String) (fresh : CompoundItem) :
    CompoundItem × CompoundMap :=
  match List.lookup key m with
  | some item => (item, m)
  | none => (fresh, m ++ [(key, fresh)])

/-- Store a new value under an existing key (Python mutates the
`CompoundItem` object in place, which updates the dict entry aliasing
it). -/
def CompoundMap.store (m : CompoundMap) (key : String) (item : CompoundItem) : CompoundMap :=
  m.map (fun pr => if pr.1 = key then (pr.1, item) else pr)

/-- Embeds `CompoundItem.register_element`: fetch or create the compound item of
the module, check that the new element has the item's `is_reg` and
element width and a fresh index, then add the index.  Returns the map
after the call together with the result (`ValueError` messages as
`Except.error`). -/
def CompoundItem.register_element (m : CompoundMap) (module_name item_name : String)
    (is_reg : Bool) (element_index element_width : Nat) :
    CompoundMap × Except String CompoundItem :=
  let fresh : CompoundItem := ⟨item_name, is_reg, element_width, ∅⟩
  let sd := CompoundMap.setdefault m item_name fresh
  let item := sd.1
  let m1 := sd.2
  if is_reg ≠ item.is_register then
    (m1, .error ("incompatible types of elements in " ++ module_name ++ "." ++ item_name))
  else if element_width ≠ item.element_width then
    (m1, .error ("incompatible widths of elements in " ++ module_name ++ "." ++ item_name))
  else if element_index ∈ item.element_indices then
    (m1, .error "duplicate index")
  else
    let item2 : CompoundItem :=
      { item with element_indices := insert element_index item.element_indices }
    (CompoundMap.store m1 item_name item2, .ok item2)

/-! ### `ModuleDeclaration.parse_verilog` (src/core/ir/module.py)

The yosys JSON for one compilation unit is a list of modules (JSON object
keys are unique and iterate in insertion order), each with `ports`,
`netnames` and `cells`.  The tree-sitter register scan
`registers_by_module_in` is an external input, modeled as a map from
module name to the register-name set. -/

structure PortJson where
  name : String
  bits : Nat
  direction : String
deriving DecidableEq, Repr

structure NetJson where
  name : String
  bits : Nat
  hide_name : Bool
deriving DecidableEq, Repr

structure CellJson where
  name : String
  cell_type : String
  hide_name : Bool
deriving DecidableEq, Repr

structure ModuleJson where
  name : String
  has_memories : Bool
  ports : List PortJson
  netnames : List NetJson
  cells : List CellJson
deriving DecidableEq, Repr

inductive ModuleItem where
  | prim (p : PrimitiveItem)
  | compound (c : CompoundItem)
deriving DecidableEq

def ModuleItem.is_register : ModuleItem → Bool
  | .prim p => p.is_register
  | .compound c => c.is_register

/-- Embeds `ModuleDeclaration`: ports and internals are name-keyed dicts,
submodules map instance name to module type name. -/
structure ModuleDeclaration where
  name : String
  ports : List (String × PrimitiveItem)
  internals : List (String × ModuleItem)
  submodules : List (String × String)
deriving DecidableEq

/-- Embeds `CompoundItem.ARRAY_ELEMENT = r'(?P<name>[!-~]+)\[(?P<index>\d+)\]'`
applied with `re.match` (anchored prefix match): the candidate positions
of `[` are those followed by a maximal non-empty digit run and then `]`;
the greedy `name` group picks the rightmost such position; the trailing
rest of the string is ignored by `re.match`. -/
def arrayElementAt (s : List Char) (k : Nat) : Bool :=
  let run := ((s.drop (k + 1)).takeWhile Char.isDigit).length
  1 ≤ k && decide ((s.drop k).head? = some '[')
    && (s.take k).all (fun c => '!' ≤ c && c ≤ '~')
    && 1 ≤ run && decide ((s.drop (k + 1 + run)).head? = some ']')

def digitsToNat (l : List Char) : Nat :=
  l.foldl (fun acc c => acc * 10 + (c.toNat - '0'.toNat)) 0

def matchArrayElement (s : String) : Option (String × Nat) :=
  let cs := s.toList
  match ((List.range cs.length).filter (arrayElementAt cs)).getLast? with
  | none => none
  | some k =>
    some (String.mk (cs.take k), digitsToNat ((cs.drop (k + 1)).takeWhile Char.isDigit))

/-- The `netnames` loop of `parse_verilog` (src/core/ir/module.py lines
88-99): skip hidden nets and ports; a net matching `NAME[INDEX]` is
registered as a compound element (`internals.add` of the shared object has
no further effect); any other net becomes a `PrimitiveItem` whose `is_reg`
is the membership test in the per-module register scan. -/
def buildInternals (register_names port_names : List String) (module_name : String) :
    List NetJson → List (String × PrimitiveItem) → CompoundMap →
    Except String (List (String × PrimitiveItem) × CompoundMap)
  | [], prims, compounds => .ok (prims, compounds)
  | net :: rest, prims, compounds =>
    if !net.hide_name && !port_names.contains net.name then
      match matchArrayElement net.name with
      | some pr =>
        let res := CompoundItem.register_element compounds module_name pr.1
          (register_names.contains pr.1) pr.2 net.bits
        match res.2 with
        | .error e => .error e
        | .ok _ => buildInternals register_names port_names module_name rest prims res.1
      | none =>
        buildInternals register_names port_names module_name rest
          (prims ++ [(net.name, ⟨net.name, net.bits, register_names.contains net.name, none⟩)])
          compounds
    else buildInternals register_names port_names module_name rest prims compounds

/-- One iteration of the `modules` loop of `parse_verilog`: reject
`memories`; build the ports with `is_reg` fixed to `False`; build the
internals; record the not-hidden cells as submodules. -/
def buildModule (registers_by_module : String → List String) (mj : ModuleJson) :
    Except String ModuleDeclaration :=
  if mj.has_memories then .error "memories is not supported"
  else
    let ports := mj.ports.map (fun pj =>
      (pj.name, (⟨pj.name, pj.bits, false, PortDirection.parse pj.direction⟩ : PrimitiveItem)))
    let register_names := registers_by_module mj.name
    let port_names := mj.ports.map (·.name)
    match buildInternals register_names port_names mj.name mj.netnames [] [] with
    | .error e => .error e
    | .ok (prims, compounds) =>
      let internals := prims.map (fun pr => (pr.1, ModuleItem.prim pr.2))
        ++ compounds.map (fun pr => (pr.1, ModuleItem.compound pr.2))
      let submodules := (mj.cells.filter (fun c => !c.hide_name)).map
        (fun c => (c.name, c.cell_type))
      .ok ⟨mj.name, ports, internals, submodules⟩

/-- The `modules` loop with its two accumulators: `model_design` (the
declarations in insertion order) and `non_top_modules` (every module type
referenced by a not-hidden cell). -/
def buildModules (registers_by_module : String → List String) :
    List ModuleJson → List (String × ModuleDeclaration) → List String →
    Except String (List (String × ModuleDeclaration) × List String)
  | [], design, non_top => .ok (design, non_top)
  | mj :: rest, design, non_top =>
    match buildModule registers_by_module mj with
    | .error e => .error e
    | .ok decl =>
      buildModules registers_by_module rest (design ++ [(mj.name, decl)])
        (non_top ++ decl.submodules.map Prod.snd)

/-- Embeds `ModuleDeclaration.parse_verilog` top detection (src/core/ir/module.py
lines 113-118): `top_modules = model_design.keys() - non_top_modules`;
reject unless exactly one remains, and return that module's
declaration. -/
def parse_verilog (registers_by_module : String → List String) (unit : List ModuleJson) :
    Except String ModuleDeclaration :=
  match buildModules registers_by_module unit [] [] with
  | .error e => .error e
  | .ok (design, non_top) =>
    match (design.map Prod.fst).filter (fun n => !non_top.contains n) with
    | [t] =>
      match List.lookup t design with
      | some d => .ok d
      | none => .error "top module missing from model_design"
    | _ => .error "multiple (or zero) top-level modules found"

/-- A module name is referenced as a submodule (cell) of another module of
the loaded design. -/
def referencedAsSubmodule (n : String) (design : List (String × ModuleDeclaration)) : Bool :=
  design.any (fun pr => (pr.2.submodules.map Prod.snd).contains n)

/-! ## Theorems -/

/-- C1: evaluation of `_get_common_paths` at the failing input.  With two
distinct circuits whose models expose the path sets `{0}` and `{1}` for a
view key, the code returns the union `{0, 1}`, while the claim (and the
method's own docstring, "Return the intersection set of `key` items in
two circuits") requires the intersection, which is empty here. -/
theorem get_common_paths_returns_union_not_intersection :
    BinaryComparator.get_common_paths false [0] [1] = [0, 1] ∧
    ([0] : List Nat).inter [1] = [] := by decide

/-- C8 counterexample: two existing pivots `0` and `1`; comparing against
pivot `0` raises (its trace is saved, first component `[0]`), comparing
against pivot `1` returns equivalent.  The circuit is then merged into
pivot `1`'s class (second component `some 1`) instead of being kept in
its own new equivalence class, refuting the claim as stated. -/
theorem pivotLoop_merges_after_exception :
    pivotLoop (fun n => if n = 0 then .raises else .outcome true) [0, 1] = ([0], some 1) := by
  rfl

/-- C8 (amended): when comparing the new circuit against a pivot raises,
the exception trace is saved and that comparison counts as non-equivalent
for that pivot only: the circuit is never merged into a pivot whose
comparison did not return equivalent, it is kept in its own new class
exactly when no pivot's comparison returns equivalent, and when every
comparison raises all traces are saved and the circuit opens its own
class. -/
theorem pivotLoop_exception_semantics (compare : Nat → CompareOutcome) (pivots : List Nat) :
    (∀ q, (pivotLoop compare pivots).2 = some q → compare q = .outcome true ∧ q ∈ pivots) ∧
    ((pivotLoop compare pivots).2 = none ↔ ∀ p ∈ pivots, compare p ≠ .outcome true) ∧
    (∀ p ∈ (pivotLoop compare pivots).1, compare p = .raises) ∧
    ((∀ p ∈ pivots, compare p = .raises) → pivotLoop compare pivots = (pivots, none)) := by
  induction pivots with
  | nil => simp [pivotLoop]
  | cons p ps ih =>
    obtain ⟨ih1, ih2, ih3, ih4⟩ := ih
    cases hc : compare p with
    | raises =>
      refine ⟨?_, ?_, ?_, ?_⟩
      · intro q hq
        simp only [pivotLoop, hc] at hq
        obtain ⟨h1, h2⟩ := ih1 q hq
        exact ⟨h1, by simp [h2]⟩
      · simp only [pivotLoop, hc]
        rw [ih2]
        constructor
        · intro h q hq
          rcases List.mem_cons.mp hq with rfl | hq'
          · simp [hc]
          · exact h q hq'
        · intro h q hq
          exact h q (List.mem_cons_of_mem _ hq)
      · intro q hq
        simp only [pivotLoop, hc, List.mem_cons] at hq
        rcases hq with rfl | hq'
        · exact hc
        · exact ih3 q hq'
      · intro h
        have := ih4 (fun q hq => h q (List.mem_cons_of_mem _ hq))
        simp [pivotLoop, hc, this]
    | outcome b =>
      cases b with
      | true =>
        refine ⟨?_, ?_, ?_, ?_⟩
        · intro q hq
          simp only [pivotLoop, hc, Option.some.injEq] at hq
          subst hq
          exact ⟨hc, List.mem_cons_self _ _⟩
        · simp only [pivotLoop, hc]
          constructor
          · intro h; cases h
          · intro h
            exact absurd hc (h p (List.mem_cons_self _ _))
        · intro q hq
          simp [pivotLoop, hc] at hq
        · intro h
          exact absurd hc (by simp [h p (List.mem_cons_self _ _)])
      | false =>
        refine ⟨?_, ?_, ?_, ?_⟩
        · intro q hq
          simp only [pivotLoop, hc] at hq
          obtain ⟨h1, h2⟩ := ih1 q hq
          exact ⟨h1, by simp [h2]⟩
        · simp only [pivotLoop, hc]
          rw [ih2]
          constructor
          · intro h q hq
            rcases List.mem_cons.mp hq with rfl | hq'
            · simp [hc]
            · exact h q hq'
          · intro h q hq
            exact h q (List.mem_cons_of_mem _ hq)
        · intro q hq
          simp only [pivotLoop, hc] at hq
          exact ih3 q hq
        · intro h
          exact absurd (h p (List.mem_cons_self _ _)) (by simp [hc])

/-- C8 witness: with two pivots whose comparisons both raise, both traces
are saved and the circuit keeps its own class. -/
theorem pivotLoop_exception_semantics_witness :
    pivotLoop (fun _ => .raises) [5, 7] = ([5, 7], none) :=
  (pivotLoop_exception_semantics (fun _ => .raises) [5, 7]).2.2.2 (fun _ _ => rfl)

/-- C10: `CompoundItem.register_element` is atomic on failure: whenever it
returns a `ValueError` the compound-items map (and hence the stored
item's element-index set) is exactly the input map and the item under
`item_name` pre-existed; a freshly created item never produces an
error. -/
theorem register_element_atomic (m : CompoundMap) (module_name item_name : String)
    (is_reg : Bool) (element_index element_width : Nat) :
    (∀ e, (CompoundItem.register_element m module_name item_name is_reg element_index
        element_width).2 = .error e →
      (CompoundItem.register_element m module_name item_name is_reg element_index
        element_width).1 = m ∧ (List.lookup item_name m).isSome = true) ∧
    (List.lookup item_name m = none →
      ∃ item, (CompoundItem.register_element m module_name item_name is_reg element_index
        element_width).2 = .ok item) := by
  simp only [CompoundItem.register_element, CompoundMap.setdefault]
  cases hl : List.lookup item_name m with
  | none =>
    simp only
    split_ifs with h1 h2 h3
    · exact absurd rfl h1
    · exact absurd rfl h2
    · exact absurd h3 (Finset.not_mem_empty _)
    · exact ⟨fun e he => absurd he (by simp), fun _ => ⟨_, rfl⟩⟩
  | some item =>
    simp only
    split_ifs with h1 h2 h3
    · exact ⟨fun e _ => ⟨rfl, by simp [hl]⟩, fun h => by simp at h⟩
    · exact ⟨fun e _ => ⟨rfl, by simp [hl]⟩, fun h => by simp at h⟩
    · exact ⟨fun e _ => ⟨rfl, by simp [hl]⟩, fun h => by simp at h⟩
    · exact ⟨fun e he => absurd he (by simp), fun h => by simp at h⟩

/-- C10 witness: a pre-existing compound register item `"a"` rejects a
non-register element; the map is returned unchanged. -/
theorem register_element_atomic_witness :
    (CompoundItem.register_element [("a", ⟨"a", true, 4, {0}⟩)] "m" "a" false 1 4).1
      = [("a", ⟨"a", true, 4, {0}⟩)] ∧
    (List.lookup "a" [("a", (⟨"a", true, 4, {0}⟩ : CompoundItem))]).isSome = true :=
  (register_element_atomic [("a", ⟨"a", true, 4, {0}⟩)] "m" "a" false 1 4).1
    "incompatible types of elements in m.a" (by rfl)

theorem listOr_eval (σb : Nat → Bool) (σ : Nat → Nat) (fs : List SmtForm) :
    (listOr fs).eval σb σ = fs.any (fun f => f.eval σb σ) := by
  induction fs with
  | nil => rfl
  | cons f fs ih =>
    show (SmtForm.orF f (listOr fs)).eval σb σ = _
    simp [SmtForm.eval, ih]

/-- C3: with two or more partial circuits `is_equivalent_to` fails with
`NotImplementedError`; with exactly one partial circuit at index `p` the
solver is handed `And(Or(Not(T[i]) for i ≠ p), T[p])`, whose value under
any assignment is `T[p] ∧ ⋁_{i ≠ p} ¬T[i]`. -/
theorem is_equivalent_assertion_partial_cases (circuits : List (SmtForm × Bool))
    (hne : circuits ≠ []) :
    (2 ≤ (partial_indices circuits).length →
      is_equivalent_assertion circuits
        = .error "comparing >=2 partial models is not supported") ∧
    (∀ p, partial_indices circuits = [p] →
      is_equivalent_assertion circuits
        = .ok (.andF (listOr (((circuits.map Prod.fst).eraseIdx p).map .notF))
            ((circuits.map Prod.fst).getD p (.boolConst true))) ∧
      ∀ σb σ,
        (SmtForm.andF (listOr (((circuits.map Prod.fst).eraseIdx p).map .notF))
            ((circuits.map Prod.fst).getD p (.boolConst true))).eval σb σ
          = (((circuits.map Prod.fst).getD p (.boolConst true)).eval σb σ
              && ((circuits.map Prod.fst).eraseIdx p).any (fun t => !(t.eval σb σ)))) := by
  constructor
  · intro h2
    have hne' : (partial_indices circuits).isEmpty = false := by
      cases hp : partial_indices circuits with
      | nil => rw [hp] at h2; simp at h2
      | cons a l => simp
    simp [is_equivalent_assertion, hne', h2]
  · intro p hp
    have h1 : ¬(2 ≤ (partial_indices circuits).length) := by rw [hp]; simp
    constructor
    · simp [is_equivalent_assertion, hp, h1]
    · intro σb σ
      simp only [SmtForm.eval, listOr_eval, List.any_map, Function.comp]
      rw [Bool.and_comm]
      rfl

/-- C3 witness: two circuits, the first partial: the assertion is
`And(Or(Not T1), T0)`. -/
theorem is_equivalent_assertion_partial_cases_witness :
    is_equivalent_assertion [(.boolVar 0, true), (.boolVar 1, false)]
      = .ok (.andF (listOr [.notF (.boolVar 1)]) (.boolVar 0)) :=
  (((is_equivalent_assertion_partial_cases [(.boolVar 0, true), (.boolVar 1, false)]
    (by simp)).2 0 (by rfl)).1)

namespace BinaryComparator

theorem equationToSpecific_shape (v : Nat) (equation : SmtForm) :
    equationToSpecific v equation = equation ∨
      ∃ pin, equationToSpecific v equation = .andF pin equation := by
  cases equation with
  | eqBV l r =>
    by_cases h : l.isConstant || r.isConstant
    · left; simp [equationToSpecific, h]
    · right; exact ⟨.eqBV (concretize l v) r, by simp [equationToSpecific, h]⟩
  | boolConst b => left; rfl
  | boolVar i => left; rfl
  | notF f => left; rfl
  | andF l r => left; rfl
  | orF l r => left; rfl
  | iffF l r => left; rfl

theorem equationToSpecific_sound (σb : Nat → Bool) (σ : Nat → Nat) (v : Nat)
    (equation : SmtForm) (h : (equationToSpecific v equation).eval σb σ = true) :
    equation.eval σb σ = true := by
  rcases equationToSpecific_shape v equation with hs | ⟨pin, hs⟩
  · rwa [hs] at h
  · rw [hs] at h
    simp only [SmtForm.eval, Bool.and_eq_true] at h
    exact h.2

theorem enumFrom_specific_all (σb : Nat → Bool) (σ : Nat → Nat) (choose : Nat → Nat)
    (eqs : List SmtForm) (n : Nat)
    (h : ((List.enumFrom n eqs).map (fun pr => equationToSpecific (choose pr.1) pr.2)).all
      (fun e => e.eval σb σ) = true) :
    eqs.all (fun e => e.eval σb σ) = true := by
  induction eqs generalizing n with
  | nil => rfl
  | cons e es ih =>
    simp only [List.enumFrom, List.map_cons, List.all_cons, Bool.and_eq_true] at h ⊢
    exact ⟨equationToSpecific_sound σb σ _ e h.1, ih (n + 1) h.2⟩

theorem enumFrom_specific_getD (choose : Nat → Nat) (eqs : List SmtForm) (n i : Nat)
    (hi : i < eqs.length) :
    ((List.enumFrom n eqs).map (fun pr => equationToSpecific (choose pr.1) pr.2)).getD i
        (.boolConst true)
      = equationToSpecific (choose (n + i)) (eqs.getD i (.boolConst true)) := by
  induction eqs generalizing n i with
  | nil => simp at hi
  | cons e es ih =>
    cases i with
    | zero => simp [List.enumFrom]
    | succ j =>
      simp only [List.enumFrom, List.map_cons, List.getD_cons_succ]
      have harith : n + 1 + j = n + (j + 1) := by omega
      rw [ih (n + 1) j (by simpa using hi), harith]

end BinaryComparator

/-- C5: quick mode is sound for equivalence.  If the solver query built
from the `always_equal` equations is unsatisfiable (`quick=false` returns
equivalent), then for every choice of the random concretization values
the query built from the `equal_to_specific_value` equations is also
unsatisfiable (`quick=true` returns equivalent); moreover every equation
produced by `equal_to_specific_value` is either the corresponding
`always_equal` equation itself or that equation conjoined with a pinning
constraint. -/
theorem quick_mode_sound (A : SmtForm) (pres : List SmtForm)
    (thisVals thatVals : Nat → BinaryComparator.SignalValues) (paths : List Nat)
    (eqs : List SmtForm)
    (hok : BinaryComparator.always_equal thisVals thatVals paths = .ok eqs)
    (hunsat : ∀ σb σ, queryEval σb σ A eqs pres = false) (choose : Nat → Nat) :
    ∃ qeqs, BinaryComparator.equal_to_specific_value choose thisVals thatVals paths
        = .ok qeqs ∧
      (∀ σb σ, queryEval σb σ A qeqs pres = false) ∧
      ∀ i, i < eqs.length →
        qeqs.getD i (.boolConst true) = eqs.getD i (.boolConst true) ∨
        ∃ pin, qeqs.getD i (.boolConst true) = .andF pin (eqs.getD i (.boolConst true)) := by
  refine ⟨eqs.enum.map (fun pr => BinaryComparator.equationToSpecific (choose pr.1) pr.2),
    ?_, ?_, ?_⟩
  · rw [BinaryComparator.equal_to_specific_value, hok]
    rfl
  · intro σb σ
    by_contra hq
    have hq' : queryEval σb σ A
        (eqs.enum.map (fun pr => BinaryComparator.equationToSpecific (choose pr.1) pr.2))
        pres = true := by
      cases h : queryEval σb σ A
        (eqs.enum.map (fun pr => BinaryComparator.equationToSpecific (choose pr.1) pr.2))
        pres
      · exact absurd h hq
      · rfl
    simp only [queryEval, Bool.and_eq_true] at hq'
    have hall : eqs.all (fun e => e.eval σb σ) = true :=
      BinaryComparator.enumFrom_specific_all σb σ choose eqs 0 hq'.1.2
    have : queryEval σb σ A eqs pres = true := by
      simp only [queryEval, Bool.and_eq_true]
      exact ⟨⟨hq'.1.1, hall⟩, hq'.2⟩
    rw [hunsat σb σ] at this
    cases this
  · intro i hi
    rw [List.enum]
    rw [BinaryComparator.enumFrom_specific_getD choose eqs 0 i hi]
    exact BinaryComparator.equationToSpecific_shape _ _

/-- C5 witness: an unsatisfiable query (assertion `FALSE`) stays
unsatisfiable in quick mode. -/
theorem quick_mode_sound_witness :
    ∃ qeqs, BinaryComparator.equal_to_specific_value (fun _ => 0)
        (fun _ => .finite []) (fun _ => .finite []) [] = .ok qeqs ∧
      (∀ σb σ, queryEval σb σ (.boolConst false) qeqs [] = false) ∧
      ∀ i, i < ([] : List SmtForm).length →
        qeqs.getD i (.boolConst true) = ([] : List SmtForm).getD i (.boolConst true) ∨
        ∃ pin, qeqs.getD i (.boolConst true)
          = .andF pin (([] : List SmtForm).getD i (.boolConst true)) :=
  quick_mode_sound (.boolConst false) [] (fun _ => .finite []) (fun _ => .finite []) [] []
    rfl (fun _ _ => rfl) (fun _ => 0)

/-- C4 counterexample: a path whose `this` stream is the finite `[v0]`
and whose `that` stream lacks `__len__` (`repeat(BVZero(1))`) is *not*
ignored: `_align_variables` yields it, and `always_equal` produces an
equation for it (comparing `v0` against the 1-bit zero), refuting the
claim that the path is ignored whenever one of the two sides lacks
`__len__`. -/
theorem align_variables_keeps_single_len_path :
    BinaryComparator.align_variables (fun _ => .finite [BVExpr.var 0 1])
        (fun _ => .infiniteZeros) [0]
      = .ok [(0, .finite [BVExpr.var 0 1], .infiniteZeros)] ∧
    BinaryComparator.always_equal (fun _ => .finite [BVExpr.var 0 1])
        (fun _ => .infiniteZeros) [0]
      = .ok [SmtForm.eqBV (BVExpr.var 0 1) (BVExpr.const 0 1)] := by
  constructor <;> rfl

namespace BinaryComparator

theorem align_width_aligned (l r : BVExpr) :
    ((align_width l r).1).width = ((align_width l r).2).width ∧
    ∀ σ, ((align_width l r).1).eval σ = l.eval σ ∧ ((align_width l r).2).eval σ = r.eval σ := by
  unfold align_width bool_to_bv
  dsimp only
  split_ifs with h0 h1
  · exact ⟨by dsimp only; omega, fun σ => ⟨rfl, rfl⟩⟩
  · exact ⟨by dsimp only [BVExpr.width]; omega, fun σ => ⟨rfl, rfl⟩⟩
  · exact ⟨by dsimp only [BVExpr.width]; omega, fun σ => ⟨rfl, rfl⟩⟩

/-- C4 (amended): every equality is asserted over zero-extended operands
of equal bit width (zero extension preserves the denoted value), and a
path is ignored exactly when *both* value streams lack `__len__`; when
exactly one stream lacks it the path is kept (its finite elements are
zipped against 1-bit zeros). -/
theorem align_variables_semantics (thisVals thatVals : Nat → SignalValues)
    (paths : List Nat)
    (hcompat : ∀ p ∈ paths, ∀ xs ys, thisVals p = .finite xs → thatVals p = .finite ys →
      xs.length = ys.length) :
    (∀ l r, ((align_width l r).1).width = ((align_width l r).2).width ∧
      ∀ σ, ((align_width l r).1).eval σ = l.eval σ ∧ ((align_width l r).2).eval σ = r.eval σ) ∧
    ∃ triples, align_variables thisVals thatVals paths = .ok triples ∧
      ∀ q, q ∈ triples.map (fun t => t.1) ↔
        (q ∈ paths ∧ (hasLen (thisVals q) || hasLen (thatVals q)) = true) := by
  refine ⟨fun l r => align_width_aligned l r, ?_⟩
  have main : ∀ ps : List Nat,
      (∀ p ∈ ps, ∀ xs ys, thisVals p = .finite xs → thatVals p = .finite ys →
        xs.length = ys.length) →
      ∃ triples, align_variables thisVals thatVals ps = .ok triples ∧
        ∀ q, q ∈ triples.map (fun t => t.1) ↔
          (q ∈ ps ∧ (hasLen (thisVals q) || hasLen (thatVals q)) = true) := by
    intro ps
    induction ps with
    | nil => exact fun _ => ⟨[], rfl, by simp⟩
    | cons p rest ih =>
      intro hcompat2
      obtain ⟨triples, hok, hmem⟩ := ih (fun q hq => hcompat2 q (List.mem_cons_of_mem _ hq))
      cases hthis : thisVals p with
      | finite xs =>
        cases hthat : thatVals p with
        | finite ys =>
          have hlen : xs.length = ys.length :=
            hcompat2 p (List.mem_cons_self _ _) xs ys hthis hthat
          refine ⟨(p, thisVals p, thatVals p) :: triples, ?_, ?_⟩
          · simp [align_variables, hthis, hthat, hasLen, hlen, hok, Except.map]
          · intro q
            simp only [List.map_cons, List.mem_cons, hmem]
            constructor
            · rintro (rfl | ⟨hq, hc⟩)
              · exact ⟨Or.inl rfl, by simp [hthis, hasLen]⟩
              · exact ⟨Or.inr hq, hc⟩
            · rintro ⟨hq | hq, hc⟩
              · exact Or.inl hq
              · exact Or.inr ⟨hq, hc⟩
        | infiniteZeros =>
          refine ⟨(p, thisVals p, thatVals p) :: triples, ?_, ?_⟩
          · simp [align_variables, hthis, hthat, hasLen, hok, Except.map]
          · intro q
            simp only [List.map_cons, List.mem_cons, hmem]
            constructor
            · rintro (rfl | ⟨hq, hc⟩)
              · exact ⟨Or.inl rfl, by simp [hthis, hasLen]⟩
              · exact ⟨Or.inr hq, hc⟩
            · rintro ⟨hq | hq, hc⟩
              · exact Or.inl hq
              · exact Or.inr ⟨hq, hc⟩
      | infiniteZeros =>
        cases hthat : thatVals p with
        | finite ys =>
          refine ⟨(p, thisVals p, thatVals p) :: triples, ?_, ?_⟩
          · simp [align_variables, hthis, hthat, hasLen, hok, Except.map]
          · intro q
            simp only [List.map_cons, List.mem_cons, hmem]
            constructor
            · rintro (rfl | ⟨hq, hc⟩)
              · exact ⟨Or.inl rfl, by simp [hthat, hasLen]⟩
              · exact ⟨Or.inr hq, hc⟩
            · rintro ⟨hq | hq, hc⟩
              · exact Or.inl hq
              · exact Or.inr ⟨hq, hc⟩
        | infiniteZeros =>
          refine ⟨triples, ?_, ?_⟩
          · simp [align_variables, hthis, hthat, hasLen, hok]
          · intro q
            rw [hmem]
            constructor
            · rintro ⟨hq, hc⟩
              exact ⟨List.mem_cons_of_mem _ hq, hc⟩
            · rintro ⟨hq, hc⟩
              rcases List.mem_cons.mp hq with rfl | hq2
              · rw [hthis, hthat] at hc
                simp [hasLen] at hc
              · exact ⟨hq2, hc⟩
  exact main paths hcompat

end BinaryComparator

/-- C4 witness: a one-path instance where the `that` stream lacks
`__len__`: the path is kept. -/
theorem align_variables_semantics_witness :
    (∀ l r, ((BinaryComparator.align_width l r).1).width
        = ((BinaryComparator.align_width l r).2).width ∧
      ∀ σ, ((BinaryComparator.align_width l r).1).eval σ = l.eval σ ∧
        ((BinaryComparator.align_width l r).2).eval σ = r.eval σ) ∧
    ∃ triples, BinaryComparator.align_variables (fun _ => .finite [BVExpr.var 3 8])
        (fun _ => .infiniteZeros) [7] = .ok triples ∧
      ∀ q, q ∈ triples.map (fun t => t.1) ↔
        (q ∈ [7] ∧ (BinaryComparator.hasLen ((fun _ => BinaryComparator.SignalValues.finite
          [BVExpr.var 3 8]) q)
            || BinaryComparator.hasLen ((fun _ =>
              BinaryComparator.SignalValues.infiniteZeros) q)) = true) :=
  BinaryComparator.align_variables_semantics (fun _ => .finite [BVExpr.var 3 8])
    (fun _ => .infiniteZeros) [7] (fun _ _ _ _ _ h => by simp at h)

theorem lookup_mem {β : Type} {k : String} {v : β} :
    ∀ {l : List (String × β)}, List.lookup k l = some v → (k, v) ∈ l := by
  intro l
  induction l with
  | nil => intro h; simp [List.lookup] at h
  | cons pr rest ih =>
    intro h
    obtain ⟨a, b⟩ := pr
    rw [List.lookup] at h
    cases hab : k == a with
    | true =>
      rw [hab] at h
      simp only [Option.some.injEq] at h
      subst h
      have : k = a := by simpa using hab
      subst this
      exact List.mem_cons_self _ _
    | false =>
      rw [hab] at h
      exact List.mem_cons_of_mem _ (ih h)

theorem lookup_some_of_mem_keys {β : Type} {k : String} :
    ∀ {l : List (String × β)}, k ∈ l.map Prod.fst → ∃ v, List.lookup k l = some v := by
  intro l
  induction l with
  | nil => intro h; simp at h
  | cons pr rest ih =>
    intro h
    obtain ⟨a, b⟩ := pr
    rw [List.lookup]
    cases hab : k == a with
    | true => exact ⟨b, rfl⟩
    | false =>
      have hne : k ≠ a := by simpa using hab
      have h2 : k ∈ rest.map Prod.fst := by
        simp only [List.map_cons, List.mem_cons] at h
        rcases h with h | h
        · exact absurd h hne
        · exact h
      exact ih h2

theorem buildModule_name (regs : String → List String) (mj : ModuleJson)
    (decl : ModuleDeclaration) (h : buildModule regs mj = .ok decl) :
    decl.name = mj.name := by
  unfold buildModule at h
  by_cases hm : mj.has_memories = true
  · rw [if_pos hm] at h; exact absurd h (by simp)
  · rw [if_neg hm] at h
    dsimp only at h
    split at h
    · exact absurd h (by simp)
    · simp only [Except.ok.injEq] at h
      rw [← h]

theorem buildModule_ports (regs : String → List String) (mj : ModuleJson)
    (decl : ModuleDeclaration) (h : buildModule regs mj = .ok decl) :
    ∀ q ∈ decl.ports, q.2.is_register = false := by
  unfold buildModule at h
  by_cases hm : mj.has_memories = true
  · rw [if_pos hm] at h; exact absurd h (by simp)
  · rw [if_neg hm] at h
    dsimp only at h
    split at h
    · exact absurd h (by simp)
    · simp only [Except.ok.injEq] at h
      rw [← h]
      intro q hq
      simp only [List.mem_map] at hq
      obtain ⟨pj, _, rfl⟩ := hq
      rfl

theorem buildModules_structure (regs : String → List String) :
    ∀ (unit : List ModuleJson) (design : List (String × ModuleDeclaration))
      (non_top : List String) design2 non_top2,
      buildModules regs unit design non_top = .ok (design2, non_top2) →
      ∃ newPart, design2 = design ++ newPart ∧
        newPart.map Prod.fst = unit.map ModuleJson.name ∧
        non_top2 = non_top ++ (newPart.map (fun pr => pr.2.submodules.map Prod.snd)).flatten ∧
        ∀ pr ∈ newPart, ∃ mj2 ∈ unit, buildModule regs mj2 = .ok pr.2 ∧ pr.2.name = pr.1 := by
  intro unit
  induction unit with
  | nil =>
    intro design non_top design2 non_top2 h
    simp only [buildModules, Except.ok.injEq, Prod.mk.injEq] at h
    exact ⟨[], by simp [h.1], by simp, by simp [h.2], by simp⟩
  | cons mj rest ih =>
    intro design non_top design2 non_top2 h
    rw [buildModules] at h
    cases hb : buildModule regs mj with
    | error e => rw [hb] at h; exact absurd h (by simp)
    | ok decl =>
      rw [hb] at h
      obtain ⟨newPart, h1, h2, h3, h4⟩ := ih _ _ _ _ h
      refine ⟨(mj.name, decl) :: newPart, by simpa using h1, by simpa using h2, ?_, ?_⟩
      · rw [h3]; simp
      · intro pr hpr
        rcases List.mem_cons.mp hpr with rfl | hpr2
        · exact ⟨mj, List.mem_cons_self _ _, hb, buildModule_name regs mj decl hb⟩
        · obtain ⟨mj2, hmj2, hok2, hname2⟩ := h4 pr hpr2
          exact ⟨mj2, List.mem_cons_of_mem _ hmj2, hok2, hname2⟩

theorem contains_flatten_eq (design : List (String × ModuleDeclaration)) (n : String) :
    ((design.map (fun pr => pr.2.submodules.map Prod.snd)).flatten).contains n
      = referencedAsSubmodule n design := by
  have hmem : n ∈ (design.map (fun pr => pr.2.submodules.map Prod.snd)).flatten
      ↔ referencedAsSubmodule n design = true := by
    simp only [List.mem_flatten, List.mem_map, referencedAsSubmodule, List.any_eq_true]
    constructor
    · rintro ⟨sub, ⟨pr, hpr, rfl⟩, hn⟩
      exact ⟨pr, hpr, List.elem_iff.mpr hn⟩
    · rintro ⟨pr, hpr, hc⟩
      exact ⟨pr.2.submodules.map Prod.snd, ⟨pr, hpr, rfl⟩, List.elem_iff.mp hc⟩
  have hiff : ((design.map (fun pr => pr.2.submodules.map Prod.snd)).flatten).contains n = true
      ↔ referencedAsSubmodule n design = true := List.elem_iff.trans hmem
  cases hrc : referencedAsSubmodule n design with
  | true => exact hiff.mpr hrc
  | false =>
    cases hcc : ((design.map (fun pr => pr.2.submodules.map Prod.snd)).flatten).contains n with
    | false => rfl
    | true => exact absurd (hrc ▸ hiff.mp hcc) (by simp)

/-- C9: every port built by `parse_verilog` satisfies
`is_register() = false`: ports are constructed with `is_reg` fixed to
`False`, independently of the syntactic register scan. -/
theorem parse_verilog_ports_never_registers (regs : String → List String)
    (unit : List ModuleJson) :
    (∀ design non_top, buildModules regs unit [] [] = .ok (design, non_top) →
      ∀ pr ∈ design, ∀ q ∈ pr.2.ports, q.2.is_register = false) ∧
    (∀ d, parse_verilog regs unit = .ok d → ∀ q ∈ d.ports, q.2.is_register = false) := by
  have part1 : ∀ design non_top, buildModules regs unit [] [] = .ok (design, non_top) →
      ∀ pr ∈ design, ∀ q ∈ pr.2.ports, q.2.is_register = false := by
    intro design non_top h pr hpr
    obtain ⟨newPart, h1, _, _, h4⟩ := buildModules_structure regs unit [] [] design non_top h
    rw [h1] at hpr
    obtain ⟨mj2, _, hok2, _⟩ := h4 pr (by simpa using hpr)
    exact buildModule_ports regs mj2 pr.2 hok2
  refine ⟨part1, ?_⟩
  intro d hd
  unfold parse_verilog at hd
  cases hbm : buildModules regs unit [] [] with
  | error e => rw [hbm] at hd; exact absurd hd (by simp)
  | ok pr =>
    obtain ⟨design, non_top⟩ := pr
    rw [hbm] at hd
    dsimp only at hd
    split at hd
    · next t heq =>
      cases hl : List.lookup t design with
      | none => rw [hl] at hd; exact absurd hd (by simp)
      | some d2 =>
        rw [hl] at hd
        simp only [Except.ok.injEq] at hd
        subst hd
        exact part1 design non_top hbm (t, d2) (lookup_mem hl)
    · exact absurd hd (by simp)

/-- C9 witness: a unit whose single module has a port named `clk` that
also appears in the register scan; the loaded port is still not a
register. -/
theorem parse_verilog_ports_never_registers_witness :
    ∀ q ∈ (⟨"top", [("clk", ⟨"clk", 1, false, some .INPUT⟩)], [], []⟩ : ModuleDeclaration).ports,
      q.2.is_register = false :=
  (parse_verilog_ports_never_registers (fun _ => ["clk"])
    [⟨"top", false, [⟨"clk", 1, "input"⟩], [], []⟩]).2
    ⟨"top", [("clk", ⟨"clk", 1, false, some .INPUT⟩)], [], []⟩ rfl

/-- C2: top-level module detection.  Given that the per-module
construction succeeds (no `memories`, no compound-item conflicts) and the
JSON module names are unique, if exactly one module is never referenced
as a submodule (cell) of another module then `parse_verilog` returns that
module's declaration, and otherwise (zero or two or more such modules) it
fails with an error. -/
theorem parse_verilog_top_detection (regs : String → List String) (unit : List ModuleJson)
    (design : List (String × ModuleDeclaration)) (non_top : List String)
    (hok : buildModules regs unit [] [] = .ok (design, non_top))
    (hnodup : (unit.map ModuleJson.name).Nodup) :
    (∀ t, (design.map Prod.fst).filter (fun n => !referencedAsSubmodule n design) = [t] →
      ∃ d, parse_verilog regs unit = .ok d ∧ List.lookup t design = some d ∧ d.name = t) ∧
    (((design.map Prod.fst).filter (fun n => !referencedAsSubmodule n design)).length ≠ 1 →
      ∃ e, parse_verilog regs unit = .error e) := by
  obtain ⟨newPart, h1, _, h3, h4⟩ := buildModules_structure regs unit [] [] design non_top hok
  have hdesign : design = newPart := by simpa using h1
  have hnontop : non_top = (design.map (fun pr => pr.2.submodules.map Prod.snd)).flatten := by
    rw [hdesign]; simpa using h3
  have hfilter : (design.map Prod.fst).filter (fun n => !non_top.contains n)
      = (design.map Prod.fst).filter (fun n => !referencedAsSubmodule n design) := by
    apply List.filter_congr
    intro n _
    rw [hnontop, contains_flatten_eq]
  constructor
  · intro t ht
    have hmem : t ∈ design.map Prod.fst := by
      have : t ∈ (design.map Prod.fst).filter (fun n => !referencedAsSubmodule n design) := by
        rw [ht]; exact List.mem_cons_self _ _
      exact List.mem_of_mem_filter this
    obtain ⟨d, hd⟩ := lookup_some_of_mem_keys hmem
    refine ⟨d, ?_, hd, ?_⟩
    · unfold parse_verilog
      rw [hok]
      dsimp only
      rw [hfilter, ht]
      dsimp only
      rw [hd]
    · have hmemd : (t, d) ∈ design := lookup_mem hd
      rw [hdesign] at hmemd
      obtain ⟨_, _, _, hname⟩ := h4 (t, d) hmemd
      exact hname
  · intro hlen
    unfold parse_verilog
    rw [hok]
    dsimp only
    rw [hfilter]
    cases hf : (design.map Prod.fst).filter (fun n => !referencedAsSubmodule n design) with
    | nil => exact ⟨_, rfl⟩
    | cons a l =>
      cases l with
      | nil => rw [hf] at hlen; simp at hlen
      | cons b l2 => exact ⟨_, rfl⟩

/-- C2 witness: a unit with modules `top` and `sub` where `top`
instantiates `sub` through a not-hidden cell: `sub` is referenced, `top`
is the unique unreferenced module, and loading returns `top`'s
declaration. -/
theorem parse_verilog_top_detection_witness :
    ∃ d, parse_verilog (fun _ => [])
        [⟨"top", false, [], [], [⟨"u0", "sub", false⟩]⟩, ⟨"sub", false, [], [], []⟩]
        = .ok d ∧
      List.lookup "top"
        [("top", (⟨"top", [], [], [("u0", "sub")]⟩ : ModuleDeclaration)),
         ("sub", (⟨"sub", [], [], []⟩ : ModuleDeclaration))] = some d ∧
      d.name = "top" :=
  (parse_verilog_top_detection (fun _ => [])
    [⟨"top", false, [], [], [⟨"u0", "sub", false⟩]⟩, ⟨"sub", false, [], [], []⟩]
    [("top", ⟨"top", [], [], [("u0", "sub")]⟩), ("sub", ⟨"sub", [], [], []⟩)]
    ["sub"] rfl (by decide)).1 "top" (by rfl)

namespace ByteCoverage

theorem interleave_flatten_eq (covered : List Bool) :
    ∀ (rs : List Replacement) (pos : Nat),
      (interleave
        (List.zipWith (fun i j => (covered.take j).drop i)
          (pos :: rs.map (·.end_byte)) (rs.map (·.start_byte) ++ [covered.length]))
        (rs.map (fun r => List.replicate (r.end_byte - r.start_byte) true))).flatten
      = updateFrom covered pos rs := by
  intro rs
  induction rs with
  | nil =>
    intro pos
    simp [interleave, updateFrom]
  | cons r rest ih =>
    intro pos
    simp only [List.map_cons, List.cons_append, List.zipWith_cons_cons]
    rw [interleave, interleave]
    simp only [List.flatten_cons]
    rw [ih r.end_byte]
    rfl

theorem update_eq_updateFrom (covered : List Bool) (rs : List Replacement) :
    update covered rs = updateFrom covered 0 rs := by
  unfold update
  dsimp only
  exact interleave_flatten_eq covered rs 0

theorem batchSorted_le : ∀ (rs : List Replacement) (pos len : Nat),
    batchSorted pos len rs = true → pos ≤ len
  | [], pos, len, h => by simpa [batchSorted] using h
  | r :: rest, pos, len, h => by
    simp only [batchSorted, Bool.and_eq_true, decide_eq_true_eq] at h
    have := batchSorted_le rest r.end_byte len h.2
    omega

theorem batchSorted_mem : ∀ (rs : List Replacement) (pos len : Nat),
    batchSorted pos len rs = true →
    ∀ r ∈ rs, pos ≤ r.start_byte ∧ r.start_byte ≤ r.end_byte ∧ r.end_byte ≤ len
  | [], pos, len, h => by simp
  | r :: rest, pos, len, h => by
    simp only [batchSorted, Bool.and_eq_true, decide_eq_true_eq] at h
    obtain ⟨⟨h1, h2⟩, h3⟩ := h
    have hle := batchSorted_le rest r.end_byte len h3
    intro r2 hr2
    rcases List.mem_cons.mp hr2 with rfl | hr2
    · exact ⟨h1, h2, hle⟩
    · have := batchSorted_mem rest r.end_byte len h3 r2 hr2
      omega

theorem updateFrom_length (covered : List Bool) :
    ∀ (rs : List Replacement) (pos : Nat),
      batchSorted pos covered.length rs = true →
      (updateFrom covered pos rs).length = covered.length - pos
  | [], pos, _ => by simp [updateFrom]
  | r :: rest, pos, h => by
    simp only [batchSorted, Bool.and_eq_true, decide_eq_true_eq] at h
    obtain ⟨⟨h1, h2⟩, h3⟩ := h
    have h4 := batchSorted_le rest r.end_byte covered.length h3
    simp only [updateFrom, List.length_append, List.length_drop, List.length_take,
      List.length_replicate]
    rw [updateFrom_length covered rest r.end_byte h3]
    omega

theorem updateFrom_getElem (covered : List Bool) :
    ∀ (rs : List Replacement) (pos i : Nat),
      batchSorted pos covered.length rs = true →
      i < covered.length - pos →
      (updateFrom covered pos rs)[i]?
        = some (covered.getD (pos + i) false
            || rs.any (fun r =>
                decide (r.start_byte ≤ pos + i) && decide (pos + i < r.end_byte)))
  | [], pos, i, _, hi => by
    simp only [updateFrom, List.take_length]
    rw [List.getElem?_drop, List.getElem?_eq_getElem (show pos + i < covered.length by omega),
      List.getD_eq_getElem?_getD,
      List.getElem?_eq_getElem (show pos + i < covered.length by omega)]
    simp
  | r :: rest, pos, i, h, hi => by
    simp only [batchSorted, Bool.and_eq_true, decide_eq_true_eq] at h
    obtain ⟨⟨h1, h2⟩, h3⟩ := h
    have hmem := batchSorted_mem rest r.end_byte covered.length h3
    have hle := batchSorted_le rest r.end_byte covered.length h3
    have hlen1 : ((covered.take r.start_byte).drop pos).length = r.start_byte - pos := by
      simp only [List.length_drop, List.length_take]
      omega
    simp only [updateFrom]
    by_cases hc1 : i < r.start_byte - pos
    · rw [List.getElem?_append_left (by rw [hlen1]; omega), List.getElem?_drop,
        List.getElem?_take]
      have hlt : pos + i < r.start_byte := by omega
      simp only [hlt, if_pos]
      have hrest : rest.any (fun r2 =>
          decide (r2.start_byte ≤ pos + i) && decide (pos + i < r2.end_byte)) = false := by
        rw [List.any_eq_false]
        intro r2 hr2
        have := hmem r2 hr2
        simp only [Bool.and_eq_true, decide_eq_true_eq, not_and]
        omega
      simp only [List.any_cons, hrest, Bool.or_false]
      have hhead : (decide (r.start_byte ≤ pos + i) && decide (pos + i < r.end_byte)) = false := by
        simp only [Bool.and_eq_false_iff, decide_eq_false_iff_not]
        left
        omega
      rw [hhead]
      rw [List.getD_eq_getElem?_getD,
        List.getElem?_eq_getElem (show pos + i < covered.length by omega)]
      simp
    · by_cases hc2 : i < r.end_byte - pos
      · rw [List.getElem?_append_right (by rw [hlen1]; omega)]
        rw [List.getElem?_append_left
          (by simp only [List.length_replicate, hlen1]; omega)]
        rw [hlen1, List.getElem?_replicate]
        have hidx : i - (r.start_byte - pos) < r.end_byte - r.start_byte := by omega
        simp only [hidx, if_pos]
        have hhead : (decide (r.start_byte ≤ pos + i) && decide (pos + i < r.end_byte)) = true := by
          simp only [Bool.and_eq_true, decide_eq_true_eq]
          omega
        simp [List.any_cons, hhead]
      · rw [List.getElem?_append_right (by rw [hlen1]; omega)]
        rw [List.getElem?_append_right
          (by simp only [List.length_replicate, hlen1]; omega)]
        simp only [List.length_replicate, hlen1]
        have harith : i - (r.start_byte - pos) - (r.end_byte - r.start_byte)
            = i - (r.end_byte - pos) := by omega
        rw [harith,
          updateFrom_getElem covered rest r.end_byte (i - (r.end_byte - pos)) h3 (by omega)]
        have harith2 : r.end_byte + (i - (r.end_byte - pos)) = pos + i := by omega
        rw [harith2]
        have hhead : (decide (r.start_byte ≤ pos + i) && decide (pos + i < r.end_byte)) = false := by
          simp only [Bool.and_eq_false_iff, decide_eq_false_iff_not]
          right
          omega
        simp [List.any_cons, hhead]

theorem count_le_of_pointwise : ∀ (l1 l2 : List Bool), l1.length = l2.length →
    (∀ i, i < l1.length → l1.getD i false = true → l2.getD i false = true) →
    l1.count true ≤ l2.count true
  | [], _, _, _ => by simp
  | a :: l1, [], hl, _ => by simp at hl
  | a :: l1, b :: l2, hl, hp => by
    have htail := count_le_of_pointwise l1 l2 (by simpa using hl)
      (fun i hi hgi => by
        have := hp (i + 1) (by simpa using hi) (by simpa using hgi)
        simpa using this)
    have hhead : a = true → b = true := fun ha => by
      have := hp 0 (by simp) (by simpa using ha)
      simpa using this
    rw [List.count_cons, List.count_cons]
    cases a <;> cases b <;> simp_all <;> omega

end ByteCoverage

/-- C7: `ByteCoverage.update` never clears a covered byte.  For a sorted,
non-overlapping batch of replacements inside the seed range, the length
of the coverage vector is preserved, every byte covered before the update
stays covered, every byte inside a replacement's original
`[start_byte, end_byte)` range becomes covered, and the count of covered
bytes (hence the returned covered percentage over successive updates of
the same seed) is nondecreasing. -/
theorem byte_coverage_update_monotone (covered : List Bool) (rs : List Replacement)
    (h : ByteCoverage.batchSorted 0 covered.length rs = true) :
    (ByteCoverage.update covered rs).length = covered.length ∧
    (∀ i, i < covered.length → covered.getD i false = true →
      (ByteCoverage.update covered rs).getD i false = true) ∧
    (∀ r ∈ rs, ∀ i, r.start_byte ≤ i → i < r.end_byte →
      (ByteCoverage.update covered rs).getD i false = true) ∧
    covered.count true ≤ (ByteCoverage.update covered rs).count true := by
  rw [ByteCoverage.update_eq_updateFrom]
  have hlen : (ByteCoverage.updateFrom covered 0 rs).length = covered.length := by
    rw [ByteCoverage.updateFrom_length covered rs 0 h]
    omega
  have hget : ∀ i, i < covered.length →
      (ByteCoverage.updateFrom covered 0 rs).getD i false
        = (covered.getD i false
            || rs.any (fun r => decide (r.start_byte ≤ i) && decide (i < r.end_byte))) := by
    intro i hi
    rw [List.getD_eq_getElem?_getD,
      ByteCoverage.updateFrom_getElem covered rs 0 i h (by omega)]
    simp
  refine ⟨hlen, ?_, ?_, ?_⟩
  · intro i hi hcov
    rw [hget i hi, hcov]
    simp
  · intro r hr i hsi hie
    have hm := ByteCoverage.batchSorted_mem rs 0 covered.length h r hr
    have hi : i < covered.length := by omega
    rw [hget i hi]
    have hany : rs.any (fun r => decide (r.start_byte ≤ i) && decide (i < r.end_byte)) = true :=
      List.any_eq_true.mpr ⟨r, hr, by simp only [Bool.and_eq_true, decide_eq_true_eq]; omega⟩
    rw [hany]
    simp
  · apply ByteCoverage.count_le_of_pointwise covered _ hlen.symm
    intro i hi hcov
    rw [hget i hi, hcov]
    simp

/-- C7 witness: `covered = [T, F, F]` updated with one replacement over
`[1, 2)`. -/
theorem byte_coverage_update_monotone_witness :
    (ByteCoverage.update [true, false, false] [⟨1, 2, []⟩]).length
      = ([true, false, false] : List Bool).length ∧
    ([true, false, false] : List Bool).count true
      ≤ (ByteCoverage.update [true, false, false] [⟨1, 2, []⟩]).count true :=
  ⟨(byte_coverage_update_monotone [true, false, false] [⟨1, 2, []⟩] (by decide)).1,
   (byte_coverage_update_monotone [true, false, false] [⟨1, 2, []⟩] (by decide)).2.2.2⟩

/-! ### Toolbox for the Python string primitives -/

theorem isPre_append_self : ∀ (w u : List Char), isPre w (w ++ u) = true
  | [], _ => rfl
  | c :: w', u => by simp [isPre, isPre_append_self w' u]

theorem hasSub_of_isPre {w s : List Char} (h : isPre w s = true) : hasSub w s = true := by
  cases s with
  | nil => exact h
  | cons c rest => simp [hasSub, h]

theorem isPre_mono : ∀ (a b s : List Char), isPre (a ++ b) s = true → isPre a s = true
  | [], _, _, _ => rfl
  | x :: a', b, s, h => by
    cases s with
    | nil => exact absurd h (by simp [isPre])
    | cons y t =>
      simp only [List.cons_append, isPre, Bool.and_eq_true] at h ⊢
      exact ⟨h.1, isPre_mono a' b t h.2⟩

theorem hasSub_mono_pre {a b : List Char} :
    ∀ {s : List Char}, hasSub (a ++ b) s = true → hasSub a s = true := by
  intro s
  induction s with
  | nil =>
    intro h
    simp only [hasSub] at h ⊢
    exact isPre_mono a b [] h
  | cons c rest ih =>
    intro h
    simp only [hasSub, Bool.or_eq_true] at h ⊢
    rcases h with h | h
    · exact Or.inl (isPre_mono a b _ h)
    · exact Or.inr (ih h)

theorem hasSub_of_isPre_append {b : List Char} :
    ∀ (a : List Char) {s : List Char}, isPre (a ++ b) s = true → hasSub b s = true
  | [], s, h => hasSub_of_isPre h
  | x :: a', s, h => by
    cases s with
    | nil => exact absurd h (by simp [isPre])
    | cons y t =>
      simp only [List.cons_append, isPre, Bool.and_eq_true] at h
      have := hasSub_of_isPre_append a' h.2
      simp [hasSub, this]

theorem hasSub_mono_suffix {a b : List Char} :
    ∀ {s : List Char}, hasSub (a ++ b) s = true → hasSub b s = true := by
  intro s
  induction s with
  | nil =>
    intro h
    simp only [hasSub] at h
    have : hasSub b ([] : List Char) = true := hasSub_of_isPre_append a (s := []) h
    exact this
  | cons c rest ih =>
    intro h
    simp only [hasSub, Bool.or_eq_true] at h ⊢
    rcases h with h | h
    · have := hasSub_of_isPre_append a h
      simp only [hasSub, Bool.or_eq_true] at this
      exact this
    · exact Or.inr (ih h)

theorem replace_noop (pat rep : List Char) :
    ∀ (s : List Char), hasSub pat s = false → replaceList pat rep s = s
  | [], _ => by rw [replaceList]
  | c :: rest, h => by
    simp only [hasSub, Bool.or_eq_false_iff] at h
    rw [replaceList, if_neg (by rw [h.1]; exact Bool.false_ne_true),
      replace_noop pat rep rest h.2]

theorem split_noSub (sep : List Char) :
    ∀ (s : List Char), hasSub sep s = false → splitOnList sep s = [s]
  | [], _ => by rw [splitOnList]
  | c :: rest, h => by
    simp only [hasSub, Bool.or_eq_false_iff] at h
    rw [splitOnList, if_neg (by rw [h.1]; exact Bool.false_ne_true),
      split_noSub sep rest h.2]

theorem hasSub_single {c : Char} : ∀ {s : List Char}, hasSub [c] s = true ↔ c ∈ s := by
  intro s
  induction s with
  | nil => simp [hasSub, isPre]
  | cons x rest ih =>
    simp only [hasSub, isPre, Bool.or_eq_true, Bool.and_eq_true, List.mem_cons]
    constructor
    · rintro (⟨h1, _⟩ | h)
      · exact Or.inl (by simpa using h1)
      · exact Or.inr (ih.mp h)
    · rintro (rfl | h)
      · exact Or.inl (by simp)
      · exact Or.inr (ih.mpr h)

theorem mem_joinSep (sep : List Char) :
    ∀ (tokens : List (List Char)) (c : Char), c ∈ joinSep sep tokens →
      c ∈ sep ∨ ∃ t ∈ tokens, c ∈ t
  | [], c, h => by simp [joinSep] at h
  | [t], c, h => by
    rw [joinSep] at h
    exact Or.inr ⟨t, List.mem_cons_self _ _, h⟩
  | t :: r :: rest, c, h => by
    rw [joinSep] at h
    simp only [List.mem_append] at h
    rcases h with h | h | h
    · exact Or.inr ⟨t, List.mem_cons_self _ _, h⟩
    · exact Or.inl h
    · rcases mem_joinSep sep (r :: rest) c h with h2 | ⟨t2, ht2, hc2⟩
      · exact Or.inl h2
      · exact Or.inr ⟨t2, List.mem_cons_of_mem _ ht2, hc2⟩

theorem isPre_fits : ∀ (w a b : List Char), isPre w (a ++ b) = true → w.length ≤ a.length →
    isPre w a = true
  | [], _, _, _, _ => rfl
  | x :: w', a, b, h, hl => by
    cases a with
    | nil => simp at hl
    | cons y a' =>
      simp only [List.cons_append, isPre, Bool.and_eq_true] at h ⊢
      exact ⟨h.1, isPre_fits w' a' b h.2 (by simpa using hl)⟩

theorem isPre_overhang : ∀ (w a b : List Char), isPre w (a ++ b) = true → a.length < w.length →
    ∃ w2, w = a ++ w2 ∧ w2 ≠ [] ∧ isPre w2 b = true
  | w, [], b, h, hl => ⟨w, rfl, by rintro rfl; simp at hl, h⟩
  | w, y :: a', b, h, hl => by
    cases w with
    | nil => simp at hl
    | cons x w' =>
      simp only [List.cons_append, isPre, Bool.and_eq_true] at h
      obtain ⟨w2, hw2, hne, hp⟩ := isPre_overhang w' a' b h.2 (by simpa using hl)
      exact ⟨w2, by simp [hw2, (by simpa using h.1 : x = y)], hne, hp⟩

theorem hasSub_nil_of_ne {w : List Char} (hw : w ≠ []) : hasSub w [] = false := by
  cases w with
  | nil => exact absurd rfl hw
  | cons x w' => rfl

theorem noSub_sep_append {w sep J : List Char} (hw : w ≠ [])
    (hdisj1 : ∀ c ∈ sep, w.headD ' ' ≠ c) (hJ : hasSub w J = false) :
    ∀ (pre : List Char), (∀ c ∈ pre, c ∈ sep) → hasSub w (pre ++ J) = false
  | [], _ => hJ
  | c :: pre', hpre => by
    have hrec := noSub_sep_append hw hdisj1 hJ pre' (fun d hd => hpre d (List.mem_cons_of_mem _ hd))
    simp only [List.cons_append, hasSub, Bool.or_eq_false_iff]
    refine ⟨?_, hrec⟩
    cases w with
    | nil => exact absurd rfl hw
    | cons x w' =>
      simp only [isPre, Bool.and_eq_false_iff]
      left
      have hc : c ∈ sep := hpre c (List.mem_cons_self _ _)
      have hx : x ≠ c := hdisj1 c hc
      simp only [beq_eq_false_iff_ne, ne_eq]
      exact hx

theorem noSub_token_append {w sep J : List Char} (hw : w ≠ []) (hsep : sep ≠ [])
    (hdisj2 : sep.headD ' ' ∉ w) (hX : hasSub w (sep ++ J) = false) :
    ∀ (t : List Char), hasSub w t = false → hasSub w (t ++ (sep ++ J)) = false
  | [], _ => hX
  | c :: t', ht => by
    simp only [hasSub, Bool.or_eq_false_iff] at ht
    have hrec := noSub_token_append hw hsep hdisj2 hX t' ht.2
    simp only [List.cons_append, hasSub, Bool.or_eq_false_iff]
    refine ⟨?_, hrec⟩
    cases h : isPre w ((c :: t') ++ (sep ++ J)) with
    | false => simpa using h
    | true =>
      exfalso
      by_cases hl : w.length ≤ (c :: t').length
      · have := isPre_fits w (c :: t') (sep ++ J) (by simpa using h) hl
        rw [ht.1] at this
        exact Bool.false_ne_true this
      · obtain ⟨w2, hw2, hne2, hp2⟩ :=
          isPre_overhang w (c :: t') (sep ++ J) (by simpa using h) (by omega)
        cases w2 with
        | nil => exact hne2 rfl
        | cons y w2' =>
          cases sep with
          | nil => exact hsep rfl
          | cons s0 sep' =>
            simp only [List.cons_append, isPre, Bool.and_eq_true] at hp2
            have hy : y ∈ w := by rw [hw2]; simp
            have hys : y = s0 := by simpa using hp2.1
            exact hdisj2 (by rw [show (s0 :: sep').headD ' ' = s0 from rfl, ← hys]; exact hy)

theorem noSub_joinSep {w sep : List Char} (hw : w ≠ []) (hsep : sep ≠ [])
    (hdisj1 : ∀ c ∈ sep, w.headD ' ' ≠ c) (hdisj2 : sep.headD ' ' ∉ w) :
    ∀ (tokens : List (List Char)), (∀ t ∈ tokens, hasSub w t = false) →
      hasSub w (joinSep sep tokens) = false
  | [], _ => by rw [joinSep]; exact hasSub_nil_of_ne hw
  | [t], ht => by rw [joinSep]; exact ht t (List.mem_cons_self _ _)
  | t :: r :: rest, ht => by
    rw [joinSep]
    have hJ : hasSub w (joinSep sep (r :: rest)) = false :=
      noSub_joinSep hw hsep hdisj1 hdisj2 (r :: rest)
        (fun t2 h2 => ht t2 (List.mem_cons_of_mem _ h2))
    have hX : hasSub w (sep ++ joinSep sep (r :: rest)) = false :=
      noSub_sep_append hw hdisj1 hJ sep (fun c hc => hc)
    exact noSub_token_append hw hsep hdisj2 hX t (ht t (List.mem_cons_self _ _))

theorem hasSub_surround {w b : List Char} :
    ∀ (a : List Char), hasSub w (a ++ (w ++ b)) = true
  | [] => hasSub_of_isPre (isPre_append_self w b)
  | c :: a' => by
    simp only [List.cons_append, hasSub, Bool.or_eq_true]
    exact Or.inr (hasSub_surround a')

/-! #### Escaping as a character homomorphism

Python `str.replace` with a one-character pattern rewrites each character
independently, so the escape passes of `merge` are `List.flatMap` of a
character map.  The inverse direction — `str.replace` with a multi-char
pattern such as `__024` applied to the escaped string — is proved by a
scan lemma: the pattern matches exactly at the escape blocks, provided
the pre-escape string never contains the bare fragment (`024`, `BRA`,
`KET`) that could forge a match. -/

theorem replace_single_flatMap (c : Char) (rep : List Char) :
    ∀ (s : List Char), replaceList [c] rep s = s.flatMap (fun x => if c == x then rep else [x])
  | [] => by rw [replaceList]; rfl
  | x :: rest => by
    rw [replaceList]
    cases hcx : (c == x) with
    | true =>
      rw [if_pos (by simp [isPre, hcx])]
      show rep ++ replaceList [c] rep rest = _
      rw [replace_single_flatMap c rep rest, List.flatMap_cons]
      simp [hcx]
    | false =>
      rw [if_neg (by simp [isPre, hcx]), replace_single_flatMap c rep rest, List.flatMap_cons]
      simp [hcx]

theorem flatMap_flatMap_assoc (f g : Char → List Char) :
    ∀ (s : List Char), (s.flatMap f).flatMap g = s.flatMap (fun c => (f c).flatMap g)
  | [] => rfl
  | x :: rest => by
    rw [List.flatMap_cons, List.flatMap_append, List.flatMap_cons,
      flatMap_flatMap_assoc f g rest]

theorem flatMap_congr_fun (f g : Char → List Char) (h : ∀ c, f c = g c) :
    ∀ (s : List Char), s.flatMap f = s.flatMap g
  | [] => rfl
  | x :: rest => by rw [List.flatMap_cons, List.flatMap_cons, h x, flatMap_congr_fun f g h rest]

theorem flatMap_id_singleton : ∀ (s : List Char), s.flatMap (fun c => [c]) = s
  | [] => rfl
  | x :: rest => by rw [List.flatMap_cons, flatMap_id_singleton rest]; rfl

/-- If the pattern matches nowhere inside `a` (including matches spilling
over into `X`), `str.replace` copies `a` verbatim and continues on `X`. -/
theorem replace_scan_skip (w rep : List Char) :
    ∀ (a X : List Char), (∀ i, i < a.length → isPre w (a.drop i ++ X) = false) →
      replaceList w rep (a ++ X) = a ++ replaceList w rep X
  | [], _, _ => rfl
  | c :: a', X, h => by
    have h0 := h 0 (by simp)
    rw [show ((c :: a').drop 0 ++ X) = c :: (a' ++ X) from rfl] at h0
    rw [List.cons_append, replaceList, if_neg (by rw [h0]; exact Bool.false_ne_true),
      replace_scan_skip w rep a' X
        (fun i hi => h (i + 1) (by simp only [List.length_cons]; omega))]
    rfl

/-- At an exact occurrence of the pattern, `str.replace` emits the
replacement and resumes right after the occurrence. -/
theorem replace_head_match (w rep : List Char) (wh : Char) (wt : List Char) (hw : w = wh :: wt) :
    ∀ (X : List Char), replaceList w rep (w ++ X) = rep ++ replaceList w rep X := by
  intro X
  subst hw
  rw [List.cons_append, replaceList, if_pos (by
    have := isPre_append_self (wh :: wt) X
    rwa [List.cons_append] at this)]
  have hd : (wt ++ X).drop ((wh :: wt).length - 1) = X := by
    simp only [List.length_cons, Nat.add_sub_cancel]
    exact List.drop_left wt X
  rw [hd]

/-- Decoding an escape: if `ψ` maps `e` to the word `w` and every other
character to a block in which `w` never starts (hypothesis `hnomatch`),
then replacing `w` by `e` in the `ψ`-image recodes the string with `ψ2`,
which agrees with `ψ` except that `e` stays literal. -/
theorem replace_decode (w : List Char) (e : Char) (ψ ψ2 : Char → List Char)
    (wh : Char) (wt : List Char) (hw : w = wh :: wt)
    (hψe : ψ e = w) (hψ2e : ψ2 e = [e]) (hsame : ∀ c, c ≠ e → ψ2 c = ψ c)
    (COND : List Char → Bool)
    (hcondTail : ∀ z rest, COND (z :: rest) = true → COND rest = true)
    (hnomatch : ∀ z rest, z ≠ e → COND (z :: rest) = true →
      ∀ i, i < (ψ z).length → isPre w ((ψ z).drop i ++ rest.flatMap ψ) = false) :
    ∀ (s : List Char), COND s = true → replaceList w [e] (s.flatMap ψ) = s.flatMap ψ2
  | [], _ => by rw [List.flatMap_nil ψ, List.flatMap_nil ψ2, replaceList]
  | z :: rest, hc => by
    rw [List.flatMap_cons, List.flatMap_cons]
    by_cases hz : z = e
    · rw [hz, hψe, hψ2e, replace_head_match w [e] wh wt hw,
        replace_decode w e ψ ψ2 wh wt hw hψe hψ2e hsame COND hcondTail hnomatch rest
          (hcondTail z rest hc)]
    · rw [replace_scan_skip w [e] (ψ z) (rest.flatMap ψ) (hnomatch z rest hz hc),
        hsame z hz,
        replace_decode w e ψ ψ2 wh wt hw hψe hψ2e hsame COND hcondTail hnomatch rest
          (hcondTail z rest hc)]

/-- A word of characters that `ψ` keeps literal (and that contains no
underscore) is a prefix of the `ψ`-image only where it is a prefix of the
original string: every multi-character block of `ψ` starts with `__`. -/
theorem isPre_flatMap_reflect (ψ : Char → List Char)
    (hψ : ∀ c, ψ c = [c] ∨ ∃ u, ψ c = '_' :: '_' :: u) :
    ∀ (v s : List Char), (∀ c ∈ v, c ≠ '_' ∧ ψ c = [c]) →
      isPre v (s.flatMap ψ) = true → isPre v s = true
  | [], _, _, _ => rfl
  | a :: v', s, hv, h => by
    cases s with
    | nil =>
      rw [List.flatMap_nil ψ] at h
      exact absurd h (by simp [isPre])
    | cons z s' =>
      rw [List.flatMap_cons] at h
      rcases hψ z with h1 | ⟨u, h1⟩
      · rw [h1] at h
        simp only [List.singleton_append] at h
        simp only [isPre, Bool.and_eq_true] at h ⊢
        exact ⟨h.1, isPre_flatMap_reflect ψ hψ v' s'
          (fun c hc => hv c (List.mem_cons_of_mem _ hc)) h.2⟩
      · rw [h1] at h
        simp only [List.cons_append, isPre, Bool.and_eq_true] at h
        have ha : a = '_' := by simpa using h.1
        exact absurd ha (hv a (List.mem_cons_self _ _)).1

/-- As `isPre_flatMap_reflect`, for a word starting with a single
underscore followed by literal non-underscore characters. -/
theorem isPre_uscore_flatMap_reflect (ψ : Char → List Char)
    (hψ : ∀ c, ψ c = [c] ∨ ∃ u, ψ c = '_' :: '_' :: u)
    (b : Char) (core' : List Char)
    (hcore : ∀ c ∈ b :: core', c ≠ '_' ∧ ψ c = [c]) :
    ∀ (s : List Char), isPre ('_' :: b :: core') (s.flatMap ψ) = true →
      isPre ('_' :: b :: core') s = true
  | [], h => by
    rw [List.flatMap_nil ψ] at h
    exact absurd h (by simp [isPre])
  | z :: s', h => by
    rw [List.flatMap_cons] at h
    rcases hψ z with h1 | ⟨u, h1⟩
    · rw [h1] at h
      simp only [List.singleton_append] at h
      simp only [isPre, Bool.and_eq_true] at h ⊢
      exact ⟨h.1, isPre_flatMap_reflect ψ hψ (b :: core') s' hcore h.2⟩
    · rw [h1] at h
      simp only [List.cons_append, isPre, Bool.and_eq_true] at h
      have hb : b = '_' := by simpa using h.2.1
      exact absurd hb (hcore b (List.mem_cons_self _ _)).1

/-- A forged pattern match starting two characters inside an escape block
(or at a literal `__` pair) forces the bare core fragment to occur in the
pre-escape string. -/
theorem spill_match_two (ψ : Char → List Char)
    (hψ : ∀ c, ψ c = [c] ∨ ∃ u, ψ c = '_' :: '_' :: u)
    (core tail2 : List Char) (hcore : ∀ c ∈ core, c ≠ '_' ∧ ψ c = [c])
    (s : List Char)
    (h : isPre (['_', '_'] ++ (core ++ tail2)) (['_', '_'] ++ s.flatMap ψ) = true) :
    hasSub core s = true := by
  simp only [List.cons_append, List.nil_append, isPre, Bool.and_eq_true] at h
  have h1 : isPre (core ++ tail2) (s.flatMap ψ) = true := h.2.2
  have h2 : isPre core (s.flatMap ψ) = true := isPre_mono core tail2 _ h1
  exact hasSub_of_isPre (isPre_flatMap_reflect ψ hψ core s hcore h2)

/-- As `spill_match_two`, for a match starting one character before the
end of an escape block or at a literal underscore. -/
theorem spill_match_one (ψ : Char → List Char)
    (hψ : ∀ c, ψ c = [c] ∨ ∃ u, ψ c = '_' :: '_' :: u)
    (b : Char) (core' tail2 : List Char)
    (hcore : ∀ c ∈ b :: core', c ≠ '_' ∧ ψ c = [c])
    (s : List Char)
    (h : isPre (['_', '_'] ++ ((b :: core') ++ tail2)) ('_' :: s.flatMap ψ) = true) :
    hasSub (b :: core') s = true := by
  simp only [List.cons_append, List.nil_append, isPre, Bool.and_eq_true] at h
  have h1 : isPre ('_' :: (b :: (core' ++ tail2))) (s.flatMap ψ) = true := h.2
  have h2 : isPre ('_' :: b :: core') (s.flatMap ψ) = true :=
    isPre_mono ('_' :: b :: core') tail2 _ h1
  have h3 := isPre_uscore_flatMap_reflect ψ hψ b core' hcore s h2
  exact hasSub_of_isPre_append ['_'] h3

namespace VerilatorNamingHelper

theorem splitOn_dot_sep (u : List Char) :
    splitOnList DOT (DOT ++ u) = [] :: splitOnList DOT u := by
  show splitOnList DOT ('_' :: '_' :: 'D' :: 'O' :: 'T' :: '_' :: '_' :: u) = _
  rw [splitOnList]
  simp [DOT, isPre]

theorem splitOn_dot_append :
    ∀ (t u : List Char), hasSub ['_', '_'] t = false → t.getLast? ≠ some '_' →
      splitOnList DOT (t ++ (DOT ++ u)) = t :: splitOnList DOT u
  | [], u, _, _ => splitOn_dot_sep u
  | c :: t', u, h2, hlast => by
    have hnotpre : isPre DOT (c :: (t' ++ (DOT ++ u))) = false := by
      cases hc : ('_' == c) with
      | false => simp [DOT, isPre, hc]
      | true =>
        have hceq : c = '_' := by
          have : '_' = c := by simpa using hc
          exact this.symm
        cases t' with
        | nil =>
          exfalso
          apply hlast
          simp [hceq]
        | cons c2 t'' =>
          cases hc2 : ('_' == c2) with
          | false => simp [DOT, isPre, hc, hc2]
          | true =>
            exfalso
            have hp : isPre ['_', '_'] (c :: c2 :: t'') = true := by simp [isPre, hc, hc2]
            have hs := hasSub_of_isPre hp
            rw [h2] at hs
            exact Bool.false_ne_true hs
    have ht' : hasSub ['_', '_'] t' = false := by
      simp only [hasSub, Bool.or_eq_false_iff] at h2
      exact h2.2
    have hlast' : t'.getLast? ≠ some '_' := by
      cases t' with
      | nil => simp
      | cons c2 t'' =>
        rw [← List.getLast?_cons_cons]
        exact hlast
    have hrec := splitOn_dot_append t' u ht' hlast'
    show splitOnList DOT (c :: (t' ++ (DOT ++ u))) = (c :: t') :: splitOnList DOT u
    rw [splitOnList, if_neg (by rw [hnotpre]; exact Bool.false_ne_true), hrec]

theorem noSub_dot_of_noSub_uu {t : List Char} (h : hasSub ['_', '_'] t = false) :
    hasSub DOT t = false := by
  cases hdt : hasSub DOT t with
  | false => rfl
  | true =>
    exfalso
    have hdt2 : hasSub (['_', '_'] ++ ['D', 'O', 'T', '_', '_']) t = true := hdt
    have := hasSub_mono_pre hdt2
    rw [h] at this
    exact Bool.false_ne_true this

theorem splitOn_joinSep :
    ∀ (tokens : List (List Char)),
      (∀ t ∈ tokens, hasSub ['_', '_'] t = false ∧ t.getLast? ≠ some '_') →
      tokens ≠ [] →
      splitOnList DOT (joinSep DOT tokens) = tokens
  | [], _, hne => absurd rfl hne
  | [t], hgood, _ => by
    rw [joinSep]
    exact split_noSub DOT t (noSub_dot_of_noSub_uu (hgood t (List.mem_cons_self _ _)).1)
  | t :: r :: rest, hgood, _ => by
    rw [joinSep,
      splitOn_dot_append t (joinSep DOT (r :: rest)) (hgood t (List.mem_cons_self _ _)).1
        (hgood t (List.mem_cons_self _ _)).2,
      splitOn_joinSep (r :: rest) (fun t2 h2 => hgood t2 (List.mem_cons_of_mem _ h2)) (by simp)]

theorem legalToken_parts {t : List Char} (h : legalToken t = true) :
    t ≠ [] ∧
      (∀ c ∈ t, (c.isAlphanum || c == '_' || c == '$' || c == '[' || c == ']') = true) ∧
      hasSub ['_', '_'] t = false ∧
      t.getLast? ≠ some '_' ∧ hasSub ['B', 'R', 'A'] t = false ∧
      hasSub ['K', 'E', 'T'] t = false ∧ hasSub ['0', '2', '4'] t = false := by
  unfold legalToken at h
  simp only [Bool.and_eq_true, Bool.not_eq_true', bne_iff_ne, ne_eq, List.all_eq_true] at h
  obtain ⟨⟨⟨⟨⟨⟨⟨h1, h2⟩, h3⟩, h4⟩, h5⟩, h6⟩, h7⟩, h8⟩ := h
  refine ⟨?_, h2, h3, ?_, h6, h7, h8⟩
  · intro hnil
    rw [hnil] at h1
    simp at h1
  · intro hc
    apply h5
    rw [List.getLastD_eq_getLast?, hc]
    rfl

theorem hasSub_single_false {c : Char} {s : List Char} (h : c ∉ s) : hasSub [c] s = false := by
  cases hs : hasSub [c] s with
  | false => rfl
  | true => exact absurd (hasSub_single.mp hs) h

/-- Embedding of `merge`'s general branch as a character homomorphism:
join with `__DOT__`, then rewrite `[`, `]`, `$` blockwise. -/
theorem merge_general (submodules : List (List Char)) (item : List Char) (is_port : Bool)
    (hnot : ¬(submodules.length = 1 ∧ is_port = true)) :
    merge submodules item is_port
      = (joinSep DOT (submodules ++ [item])).flatMap escBKD := by
  unfold merge
  rw [if_neg hnot]
  dsimp only
  rw [replace_single_flatMap '[' LPAREN, replace_single_flatMap ']' RPAREN,
    replace_single_flatMap '$' DOLLAR, flatMap_flatMap_assoc, flatMap_flatMap_assoc]
  refine flatMap_congr_fun _ _ (fun c => ?_) _
  by_cases h1 : c = '['
  · subst h1; decide
  by_cases h2 : c = ']'
  · subst h2; decide
  by_cases h3 : c = '$'
  · subst h3; decide
  · have e1 : ('[' == c) = false := beq_eq_false_iff_ne.mpr (fun hh => h1 hh.symm)
    have e2 : (']' == c) = false := beq_eq_false_iff_ne.mpr (fun hh => h2 hh.symm)
    have e3 : ('$' == c) = false := beq_eq_false_iff_ne.mpr (fun hh => h3 hh.symm)
    have n1 : ¬('[' = c) := fun hh => h1 hh.symm
    have n2 : ¬(']' = c) := fun hh => h2 hh.symm
    have n3 : ¬('$' = c) := fun hh => h3 hh.symm
    simp [escBKD, e1, e2, e3, h1, h2, h3, n1, n2, n3]

theorem noSub_dollar {j : List Char} (h024 : hasSub ['0', '2', '4'] j = false) :
    hasSub DOLLAR j = false := by
  cases hs : hasSub DOLLAR j with
  | false => rfl
  | true =>
    exfalso
    have hs2 : hasSub (['_', '_'] ++ ['0', '2', '4']) j = true := hs
    have := hasSub_mono_suffix hs2
    rw [h024] at this
    exact Bool.false_ne_true this

theorem noSub_lparen {j : List Char} (hbra : hasSub ['B', 'R', 'A'] j = false) :
    hasSub LPAREN j = false := by
  cases hs : hasSub LPAREN j with
  | false => rfl
  | true =>
    exfalso
    have hs2 : hasSub (['_', '_'] ++ ['B', 'R', 'A', '_', '_']) j = true := hs
    have hs3 := hasSub_mono_suffix hs2
    have hs4 : hasSub (['B', 'R', 'A'] ++ ['_', '_']) j = true := hs3
    have := hasSub_mono_pre hs4
    rw [hbra] at this
    exact Bool.false_ne_true this

theorem noSub_rparen {j : List Char} (hket : hasSub ['K', 'E', 'T'] j = false) :
    hasSub RPAREN j = false := by
  cases hs : hasSub RPAREN j with
  | false => rfl
  | true =>
    exfalso
    have hs2 : hasSub (['_', '_'] ++ ['K', 'E', 'T', '_', '_']) j = true := hs
    have hs3 := hasSub_mono_suffix hs2
    have hs4 : hasSub (['K', 'E', 'T'] ++ ['_', '_']) j = true := hs3
    have := hasSub_mono_pre hs4
    rw [hket] at this
    exact Bool.false_ne_true this

/-- Applying `split` to a plain legal token: every unescape is a no-op, no
`__DOT__` occurs, and the token is returned alone. -/
theorem split_single_token {t : List Char} (hlegal : legalToken t = true) :
    split t = [t] := by
  obtain ⟨_, _, huu, _, _, _, h024⟩ := legalToken_parts hlegal
  unfold split
  rw [replace_noop DOLLAR ['$'] t (noSub_dollar h024)]
  rw [if_pos (noSub_dot_of_noSub_uu huu)]

theorem escBKD_blocks : ∀ c, escBKD c = [c] ∨ ∃ u, escBKD c = '_' :: '_' :: u := by
  intro c
  by_cases h1 : c = '['
  · exact Or.inr ⟨['B', 'R', 'A', '_', '_'], by simp [escBKD, h1, LPAREN]⟩
  by_cases h2 : c = ']'
  · exact Or.inr ⟨['K', 'E', 'T', '_', '_'], by simp [escBKD, h1, h2, RPAREN]⟩
  by_cases h3 : c = '$'
  · exact Or.inr ⟨['0', '2', '4'], by simp [escBKD, h1, h2, h3, DOLLAR]⟩
  · exact Or.inl (by simp [escBKD, h1, h2, h3])

theorem escBK_blocks : ∀ c, escBK c = [c] ∨ ∃ u, escBK c = '_' :: '_' :: u := by
  intro c
  by_cases h1 : c = '['
  · exact Or.inr ⟨['B', 'R', 'A', '_', '_'], by simp [escBK, h1, LPAREN]⟩
  by_cases h2 : c = ']'
  · exact Or.inr ⟨['K', 'E', 'T', '_', '_'], by simp [escBK, h1, h2, RPAREN]⟩
  · exact Or.inl (by simp [escBK, h1, h2])

theorem escK_blocks : ∀ c, escK c = [c] ∨ ∃ u, escK c = '_' :: '_' :: u := by
  intro c
  by_cases h2 : c = ']'
  · exact Or.inr ⟨['K', 'E', 'T', '_', '_'], by simp [escK, h2, RPAREN]⟩
  · exact Or.inl (by simp [escK, h2])

theorem escD_blocks : ∀ c, escD c = [c] ∨ ∃ u, escD c = '_' :: '_' :: u := by
  intro c
  by_cases h3 : c = '$'
  · exact Or.inr ⟨['0', '2', '4'], by simp [escD, h3, DOLLAR]⟩
  · exact Or.inl (by simp [escD, h3])

/-- In the `__BRA__`/`__KET__`/`__024`-escaped image of a string with no
bare `024` fragment, `__024` never starts inside a non-`$` block. -/
theorem nomatch_dollar_escBKD :
    ∀ (z : Char) (rest : List Char), z ≠ '$' →
      (!hasSub ['0', '2', '4'] (z :: rest)) = true →
      ∀ i, i < (escBKD z).length →
        isPre DOLLAR ((escBKD z).drop i ++ rest.flatMap escBKD) = false := by
  intro z rest hz hc i hi
  simp only [Bool.not_eq_true'] at hc
  have hc2 : hasSub ['0', '2', '4'] rest = false := by
    simp only [hasSub, Bool.or_eq_false_iff] at hc
    exact hc.2
  by_cases h1 : z = '['
  · subst h1
    rw [show escBKD '[' = LPAREN from by simp [escBKD]] at hi ⊢
    have hi7 : i < 7 := by simpa [LPAREN] using hi
    interval_cases i
    · simp [isPre, DOLLAR, LPAREN]
    · simp [isPre, DOLLAR, LPAREN]
    · simp [isPre, DOLLAR, LPAREN]
    · simp [isPre, DOLLAR, LPAREN]
    · simp [isPre, DOLLAR, LPAREN]
    · cases hp : isPre DOLLAR (LPAREN.drop 5 ++ rest.flatMap escBKD) with
      | false => rfl
      | true =>
        exfalso
        have hp2 : isPre (['_', '_'] ++ (['0', '2', '4'] ++ ([] : List Char)))
            (['_', '_'] ++ rest.flatMap escBKD) = true := hp
        have hs := spill_match_two escBKD escBKD_blocks ['0', '2', '4'] [] (by decide) rest hp2
        rw [hc2] at hs
        exact Bool.false_ne_true hs
    · cases hp : isPre DOLLAR (LPAREN.drop 6 ++ rest.flatMap escBKD) with
      | false => rfl
      | true =>
        exfalso
        have hp2 : isPre (['_', '_'] ++ (('0' :: ['2', '4']) ++ ([] : List Char)))
            ('_' :: rest.flatMap escBKD) = true := hp
        have hs := spill_match_one escBKD escBKD_blocks '0' ['2', '4'] [] (by decide) rest hp2
        rw [hc2] at hs
        exact Bool.false_ne_true hs
  by_cases h2 : z = ']'
  · subst h2
    rw [show escBKD ']' = RPAREN from by simp [escBKD]] at hi ⊢
    have hi7 : i < 7 := by simpa [RPAREN] using hi
    interval_cases i
    · simp [isPre, DOLLAR, RPAREN]
    · simp [isPre, DOLLAR, RPAREN]
    · simp [isPre, DOLLAR, RPAREN]
    · simp [isPre, DOLLAR, RPAREN]
    · simp [isPre, DOLLAR, RPAREN]
    · cases hp : isPre DOLLAR (RPAREN.drop 5 ++ rest.flatMap escBKD) with
      | false => rfl
      | true =>
        exfalso
        have hp2 : isPre (['_', '_'] ++ (['0', '2', '4'] ++ ([] : List Char)))
            (['_', '_'] ++ rest.flatMap escBKD) = true := hp
        have hs := spill_match_two escBKD escBKD_blocks ['0', '2', '4'] [] (by decide) rest hp2
        rw [hc2] at hs
        exact Bool.false_ne_true hs
    · cases hp : isPre DOLLAR (RPAREN.drop 6 ++ rest.flatMap escBKD) with
      | false => rfl
      | true =>
        exfalso
        have hp2 : isPre (['_', '_'] ++ (('0' :: ['2', '4']) ++ ([] : List Char)))
            ('_' :: rest.flatMap escBKD) = true := hp
        have hs := spill_match_one escBKD escBKD_blocks '0' ['2', '4'] [] (by decide) rest hp2
        rw [hc2] at hs
        exact Bool.false_ne_true hs
  · have hzs : escBKD z = [z] := by simp [escBKD, h1, h2, hz]
    rw [hzs] at hi ⊢
    have hi0 : i = 0 := by
      simp only [List.length_cons, List.length_nil] at hi
      omega
    subst hi0
    by_cases hz2 : z = '_'
    · subst hz2
      cases hp : isPre DOLLAR (['_'].drop 0 ++ rest.flatMap escBKD) with
      | false => rfl
      | true =>
        exfalso
        have hp2 : isPre (['_', '_'] ++ (('0' :: ['2', '4']) ++ ([] : List Char)))
            ('_' :: rest.flatMap escBKD) = true := hp
        have hs := spill_match_one escBKD escBKD_blocks '0' ['2', '4'] [] (by decide) rest hp2
        rw [hc2] at hs
        exact Bool.false_ne_true hs
    · have e : ('_' == z) = false := beq_eq_false_iff_ne.mpr (fun hh => hz2 hh.symm)
      simp [isPre, DOLLAR, e]

/-- In the `__BRA__`/`__KET__`-escaped image of a string with no bare
`BRA` fragment, `__BRA__` never starts inside a non-`[` block. -/
theorem nomatch_bra_escBK :
    ∀ (z : Char) (rest : List Char), z ≠ '[' →
      (!hasSub ['B', 'R', 'A'] (z :: rest)) = true →
      ∀ i, i < (escBK z).length →
        isPre LPAREN ((escBK z).drop i ++ rest.flatMap escBK) = false := by
  intro z rest hz hc i hi
  simp only [Bool.not_eq_true'] at hc
  have hc2 : hasSub ['B', 'R', 'A'] rest = false := by
    simp only [hasSub, Bool.or_eq_false_iff] at hc
    exact hc.2
  by_cases h2 : z = ']'
  · subst h2
    rw [show escBK ']' = RPAREN from by simp [escBK]] at hi ⊢
    have hi7 : i < 7 := by simpa [RPAREN] using hi
    interval_cases i
    · simp [isPre, LPAREN, RPAREN]
    · simp [isPre, LPAREN, RPAREN]
    · simp [isPre, LPAREN, RPAREN]
    · simp [isPre, LPAREN, RPAREN]
    · simp [isPre, LPAREN, RPAREN]
    · cases hp : isPre LPAREN (RPAREN.drop 5 ++ rest.flatMap escBK) with
      | false => rfl
      | true =>
        exfalso
        have hp2 : isPre (['_', '_'] ++ (['B', 'R', 'A'] ++ ['_', '_']))
            (['_', '_'] ++ rest.flatMap escBK) = true := hp
        have hs := spill_match_two escBK escBK_blocks ['B', 'R', 'A'] ['_', '_']
          (by decide) rest hp2
        rw [hc2] at hs
        exact Bool.false_ne_true hs
    · cases hp : isPre LPAREN (RPAREN.drop 6 ++ rest.flatMap escBK) with
      | false => rfl
      | true =>
        exfalso
        have hp2 : isPre (['_', '_'] ++ (('B' :: ['R', 'A']) ++ ['_', '_']))
            ('_' :: rest.flatMap escBK) = true := hp
        have hs := spill_match_one escBK escBK_blocks 'B' ['R', 'A'] ['_', '_']
          (by decide) rest hp2
        rw [hc2] at hs
        exact Bool.false_ne_true hs
  · have hzs : escBK z = [z] := by simp [escBK, hz, h2]
    rw [hzs] at hi ⊢
    have hi0 : i = 0 := by
      simp only [List.length_cons, List.length_nil] at hi
      omega
    subst hi0
    by_cases hz2 : z = '_'
    · subst hz2
      cases hp : isPre LPAREN (['_'].drop 0 ++ rest.flatMap escBK) with
      | false => rfl
      | true =>
        exfalso
        have hp2 : isPre (['_', '_'] ++ (('B' :: ['R', 'A']) ++ ['_', '_']))
            ('_' :: rest.flatMap escBK) = true := hp
        have hs := spill_match_one escBK escBK_blocks 'B' ['R', 'A'] ['_', '_']
          (by decide) rest hp2
        rw [hc2] at hs
        exact Bool.false_ne_true hs
    · have e : ('_' == z) = false := beq_eq_false_iff_ne.mpr (fun hh => hz2 hh.symm)
      simp [isPre, LPAREN, e]

/-- In the `__KET__`-escaped image of a string with no bare `KET`
fragment, `__KET__` never starts inside a non-`]` block. -/
theorem nomatch_ket_escK :
    ∀ (z : Char) (rest : List Char), z ≠ ']' →
      (!hasSub ['K', 'E', 'T'] (z :: rest)) = true →
      ∀ i, i < (escK z).length →
        isPre RPAREN ((escK z).drop i ++ rest.flatMap escK) = false := by
  intro z rest hz hc i hi
  simp only [Bool.not_eq_true'] at hc
  have hc2 : hasSub ['K', 'E', 'T'] rest = false := by
    simp only [hasSub, Bool.or_eq_false_iff] at hc
    exact hc.2
  have hzs : escK z = [z] := by simp [escK, hz]
  rw [hzs] at hi ⊢
  have hi0 : i = 0 := by
    simp only [List.length_cons, List.length_nil] at hi
    omega
  subst hi0
  by_cases hz2 : z = '_'
  · subst hz2
    cases hp : isPre RPAREN (['_'].drop 0 ++ rest.flatMap escK) with
    | false => rfl
    | true =>
      exfalso
      have hp2 : isPre (['_', '_'] ++ (('K' :: ['E', 'T']) ++ ['_', '_']))
          ('_' :: rest.flatMap escK) = true := hp
      have hs := spill_match_one escK escK_blocks 'K' ['E', 'T'] ['_', '_']
        (by decide) rest hp2
      rw [hc2] at hs
      exact Bool.false_ne_true hs
  · have e : ('_' == z) = false := beq_eq_false_iff_ne.mpr (fun hh => hz2 hh.symm)
    simp [isPre, RPAREN, e]

/-- In the `$`-only escaped image of a string with no bare `024`
fragment, `__024` never starts inside a non-`$` block. -/
theorem nomatch_dollar_escD :
    ∀ (z : Char) (rest : List Char), z ≠ '$' →
      (!hasSub ['0', '2', '4'] (z :: rest)) = true →
      ∀ i, i < (escD z).length →
        isPre DOLLAR ((escD z).drop i ++ rest.flatMap escD) = false := by
  intro z rest hz hc i hi
  simp only [Bool.not_eq_true'] at hc
  have hc2 : hasSub ['0', '2', '4'] rest = false := by
    simp only [hasSub, Bool.or_eq_false_iff] at hc
    exact hc.2
  have hzs : escD z = [z] := by simp [escD, hz]
  rw [hzs] at hi ⊢
  have hi0 : i = 0 := by
    simp only [List.length_cons, List.length_nil] at hi
    omega
  subst hi0
  by_cases hz2 : z = '_'
  · subst hz2
    cases hp : isPre DOLLAR (['_'].drop 0 ++ rest.flatMap escD) with
    | false => rfl
    | true =>
      exfalso
      have hp2 : isPre (['_', '_'] ++ (('0' :: ['2', '4']) ++ ([] : List Char)))
          ('_' :: rest.flatMap escD) = true := hp
      have hs := spill_match_one escD escD_blocks '0' ['2', '4'] [] (by decide) rest hp2
      rw [hc2] at hs
      exact Bool.false_ne_true hs
  · have e : ('_' == z) = false := beq_eq_false_iff_ne.mpr (fun hh => hz2 hh.symm)
    simp [isPre, DOLLAR, e]

/-- The `__024` unescape in `split` exactly inverts the `$` escape of
`merge`'s general branch, leaving the bracket escapes in place. -/
theorem decode_dollar_escBKD {j : List Char} (h024 : hasSub ['0', '2', '4'] j = false) :
    replaceList DOLLAR ['$'] (j.flatMap escBKD) = j.flatMap escBK := by
  refine replace_decode DOLLAR '$' escBKD escBK '_' ['_', '0', '2', '4'] rfl (by decide)
    (by decide) ?_ (fun s => !hasSub ['0', '2', '4'] s) ?_ nomatch_dollar_escBKD j ?_
  · intro c hc
    by_cases hca : c = '['
    · simp [escBK, escBKD, hca]
    · by_cases hcb : c = ']'
      · simp [escBK, escBKD, hca, hcb]
      · simp [escBK, escBKD, hca, hcb, hc]
  · intro z rest h
    simp only [Bool.not_eq_true'] at h ⊢
    simp only [hasSub, Bool.or_eq_false_iff] at h
    exact h.2
  · simp [h024]

/-- The `__BRA__` unescape in `split` exactly inverts the `[` escape,
leaving the `]` escape in place. -/
theorem decode_bra_escBK {j : List Char} (hbra : hasSub ['B', 'R', 'A'] j = false) :
    replaceList LPAREN ['['] (j.flatMap escBK) = j.flatMap escK := by
  refine replace_decode LPAREN '[' escBK escK '_' ['_', 'B', 'R', 'A', '_', '_'] rfl (by decide)
    (by decide) ?_ (fun s => !hasSub ['B', 'R', 'A'] s) ?_ nomatch_bra_escBK j ?_
  · intro c hc
    by_cases hcb : c = ']'
    · simp [escK, escBK, hc, hcb]
    · simp [escK, escBK, hc, hcb]
  · intro z rest h
    simp only [Bool.not_eq_true'] at h ⊢
    simp only [hasSub, Bool.or_eq_false_iff] at h
    exact h.2
  · simp [hbra]

/-- The `__KET__` unescape in `split` exactly inverts the `]` escape,
recovering the un-escaped joined string. -/
theorem decode_ket_escK {j : List Char} (hket : hasSub ['K', 'E', 'T'] j = false) :
    replaceList RPAREN [']'] (j.flatMap escK) = j := by
  have hmain : replaceList RPAREN [']'] (j.flatMap escK) = j.flatMap (fun c => [c]) := by
    refine replace_decode RPAREN ']' escK (fun c => [c]) '_' ['_', 'K', 'E', 'T', '_', '_'] rfl
      (by decide) rfl ?_ (fun s => !hasSub ['K', 'E', 'T'] s) ?_ nomatch_ket_escK j ?_
    · intro c hc
      simp [escK, hc]
    · intro z rest h
      simp only [Bool.not_eq_true'] at h ⊢
      simp only [hasSub, Bool.or_eq_false_iff] at h
      exact h.2
    · simp [hket]
  rw [hmain, flatMap_id_singleton]

/-- The `__024` unescape in `split` exactly inverts the `$` escape of
`merge`'s top-module-port branch. -/
theorem decode_dollar_escD {t : List Char} (h024 : hasSub ['0', '2', '4'] t = false) :
    replaceList DOLLAR ['$'] (t.flatMap escD) = t := by
  have hmain : replaceList DOLLAR ['$'] (t.flatMap escD) = t.flatMap (fun c => [c]) := by
    refine replace_decode DOLLAR '$' escD (fun c => [c]) '_' ['_', '0', '2', '4'] rfl
      (by decide) rfl ?_ (fun s => !hasSub ['0', '2', '4'] s) ?_ nomatch_dollar_escD t ?_
    · intro c hc
      simp [escD, hc]
    · intro z rest h
      simp only [Bool.not_eq_true'] at h ⊢
      simp only [hasSub, Bool.or_eq_false_iff] at h
      exact h.2
    · simp [h024]
  rw [hmain, flatMap_id_singleton]

/-- The escaped image of a joined string still contains the literal
`__DOT__` separator: the separator characters are untouched by the
escapes. -/
theorem dot_in_escBK (t J : List Char) :
    hasSub DOT ((t ++ (DOT ++ J)).flatMap escBK) = true := by
  rw [List.flatMap_append, List.flatMap_append,
    show DOT.flatMap escBK = DOT from by decide]
  exact hasSub_surround _

/-- C6 (amended): for Verilator-legal submodule tags and item names —
non-empty strings over letters, digits, `_`, `$`, `[`, `]` with no `__`
run, no leading or trailing underscore, and none of the reserved mangling
fragments `BRA`, `KET`, `024` as substrings — and a non-empty submodule
chain (every call site passes at least the root module tag), `split`
applied to `merge(submodules, item, is_port)` recovers the sequence
`(submodules..., item)` in the general case, the `[` to `__BRA__`, `]` to
`__KET__` and `$` to `__024` substitutions being exactly inverted; in the
top-module-port special case (`len(submodules) == 1` and `is_port`) the
round trip yields `(item,)` alone — the top module tag is dropped
(`VerilatorCppCrossbar._parse` re-prepends `model.top_module()` to
compensate). -/
theorem split_merge_roundtrip (submodules : List (List Char)) (item : List Char)
    (is_port : Bool) (hlegal : ∀ t ∈ submodules ++ [item], legalToken t = true) :
    (submodules ≠ [] → ¬(submodules.length = 1 ∧ is_port = true) →
      split (merge submodules item is_port) = submodules ++ [item]) ∧
    (submodules.length = 1 ∧ is_port = true →
      split (merge submodules item is_port) = [item]) := by
  have hitem : legalToken item = true := hlegal item (by simp)
  have hgood : ∀ t ∈ submodules ++ [item],
      hasSub ['_', '_'] t = false ∧ t.getLast? ≠ some '_' := by
    intro t ht
    obtain ⟨_, _, huu, hlast, _, _, _⟩ := legalToken_parts (hlegal t ht)
    exact ⟨huu, hlast⟩
  constructor
  · intro hne hnot
    cases submodules with
    | nil => exact absurd rfl hne
    | cons s0 srest =>
      have hshape : ∃ r rest2, srest ++ [item] = r :: rest2 := by
        cases srest with
        | nil => exact ⟨item, [], rfl⟩
        | cons s1 srest2 => exact ⟨s1, srest2 ++ [item], rfl⟩
      obtain ⟨r, rest2, hshape⟩ := hshape
      have htok : (s0 :: srest) ++ [item] = s0 :: r :: rest2 := by simp [hshape]
      rw [merge_general (s0 :: srest) item is_port hnot, htok]
      have hjoin : joinSep DOT (s0 :: r :: rest2)
          = s0 ++ (DOT ++ joinSep DOT (r :: rest2)) := by rw [joinSep]
      have h024 : hasSub ['0', '2', '4'] (joinSep DOT (s0 :: r :: rest2)) = false := by
        apply noSub_joinSep (by simp) (by simp [DOT]) (by decide) (by decide)
        intro t ht
        rw [← htok] at ht
        exact (legalToken_parts (hlegal t ht)).2.2.2.2.2.2
      have hbra : hasSub ['B', 'R', 'A'] (joinSep DOT (s0 :: r :: rest2)) = false := by
        apply noSub_joinSep (by simp) (by simp [DOT]) (by decide) (by decide)
        intro t ht
        rw [← htok] at ht
        exact (legalToken_parts (hlegal t ht)).2.2.2.2.1
      have hket : hasSub ['K', 'E', 'T'] (joinSep DOT (s0 :: r :: rest2)) = false := by
        apply noSub_joinSep (by simp) (by simp [DOT]) (by decide) (by decide)
        intro t ht
        rw [← htok] at ht
        exact (legalToken_parts (hlegal t ht)).2.2.2.2.2.1
      have hdot : hasSub DOT ((joinSep DOT (s0 :: r :: rest2)).flatMap escBK) = true := by
        rw [hjoin]
        exact dot_in_escBK s0 (joinSep DOT (r :: rest2))
      unfold split
      rw [decode_dollar_escBKD h024]
      rw [if_neg (by rw [hdot]; simp)]
      rw [decode_bra_escBK hbra, decode_ket_escK hket]
      apply splitOn_joinSep
      · intro t ht
        rw [← htok] at ht
        exact hgood t ht
      · simp
  · intro hport
    obtain ⟨huu_item, _⟩ := hgood item (by simp)
    have h024i : hasSub ['0', '2', '4'] item = false :=
      (legalToken_parts hitem).2.2.2.2.2.2
    unfold merge
    rw [if_pos hport]
    have hmm : replaceList ['$'] DOLLAR item = item.flatMap escD := by
      rw [replace_single_flatMap '$' DOLLAR item]
      refine flatMap_congr_fun _ _ (fun c => ?_) item
      by_cases hc : c = '$'
      · simp [escD, hc]
      · have e : ('$' == c) = false := beq_eq_false_iff_ne.mpr (fun hh => hc hh.symm)
        simp [escD, e, hc]
    rw [hmm]
    unfold split
    rw [decode_dollar_escD h024i]
    rw [if_pos (noSub_dot_of_noSub_uu huu_item)]

end VerilatorNamingHelper

/-- C6 counterexample: the top-module-port special case does not recover
the submodule tag.  `merge(["top"], "x", is_port=True)` is `"x"`, and
`split("x")` is `("x",)`, not `("top", "x")`. -/
theorem vnh_top_port_drops_module_tag :
    VerilatorNamingHelper.split (VerilatorNamingHelper.merge [['t', 'o', 'p']] ['x'] true)
      = [['x']] ∧ ([['x']] : List (List Char)) ≠ [['t', 'o', 'p'], ['x']] := by
  constructor
  · simp [VerilatorNamingHelper.merge, VerilatorNamingHelper.split,
      VerilatorNamingHelper.DOLLAR, VerilatorNamingHelper.DOT, replaceList, splitOnList,
      hasSub, isPre]
  · decide

/-- C6 witness: a hierarchy whose instance tag `u[0]` carries brackets and
whose item name `sig$x` carries a dollar sign round-trips: `merge` applies
the `__BRA__`, `__KET__` and `__024` escapes and `split` inverts them. -/
theorem vnh_split_merge_witness :
    VerilatorNamingHelper.split
        (VerilatorNamingHelper.merge [['t', 'o', 'p'], ['u', '[', '0', ']']]
          ['s', 'i', 'g', '$', 'x'] false)
      = [['t', 'o', 'p'], ['u', '[', '0', ']'], ['s', 'i', 'g', '$', 'x']] :=
  (VerilatorNamingHelper.split_merge_roundtrip [['t', 'o', 'p'], ['u', '[', '0', ']']]
    ['s', 'i', 'g', '$', 'x'] false (by decide)).1 (by simp) (by simp)

end VeriXmith
